import Mathlib

/-!
Shallow embedding of `compiler/rustc_mir_build/src/thir/pattern/deconstruct_pat.rs`:
the constructor algebra, integer-range and slice splitting, constructor-set
enumeration and split-column analysis, and deconstructed patterns.

Machine integers (`u128`, `usize`) are modelled as `Nat`; the places where the
source relies on bounded arithmetic (`checked_add`, `checked_sub`, the
`usize::MAX` sentinel) are translated explicitly.  Rust panics (`bug!`,
`unwrap`, asserts) are modelled by `Option`-valued functions returning `none`.
-/

/-- `u128::MAX`. -/
def u128MAX : Nat := 2 ^ 128 - 1

/-- `usize::MAX` (64-bit target). -/
def usizeMAX : Nat := 2 ^ 64 - 1

/-- A possibly infinite integer, from `enum MaybeInfiniteInt`.  `Finite` holds the
biased encoding of a value (a `u128` in the source, here a `Nat`; all values
produced by the program satisfy `n ≤ u128MAX`). -/
inductive MaybeInfiniteInt : Type where
  | NegInfinity : MaybeInfiniteInt
  | Finite (n : Nat) : MaybeInfiniteInt
  | JustAfterMax : MaybeInfiniteInt
  | PosInfinity : MaybeInfiniteInt
deriving DecidableEq, Repr

/-- The strict order on `MaybeInfiniteInt`, as derived by `#[derive(PartialOrd, Ord)]`
from the declaration order: `NegInfinity < Finite _ < JustAfterMax < PosInfinity`,
with `Finite` compared by value. -/
def MaybeInfiniteInt.lt : MaybeInfiniteInt → MaybeInfiniteInt → Bool
  | .NegInfinity, .NegInfinity => false
  | .NegInfinity, _ => true
  | .Finite _, .NegInfinity => false
  | .Finite m, .Finite n => m < n
  | .Finite _, _ => true
  | .JustAfterMax, .PosInfinity => true
  | .JustAfterMax, _ => false
  | .PosInfinity, _ => false

/-- The non-strict order on `MaybeInfiniteInt` (total order: `a ≤ b ↔ ¬ b < a`). -/
def MaybeInfiniteInt.le (a b : MaybeInfiniteInt) : Bool := !(MaybeInfiniteInt.lt b a)

/-- `std::cmp::max` on `MaybeInfiniteInt` (ties are irrelevant: equality is structural). -/
def MaybeInfiniteInt.max (a b : MaybeInfiniteInt) : MaybeInfiniteInt :=
  if MaybeInfiniteInt.lt a b then b else a

/-- `std::cmp::min` on `MaybeInfiniteInt`. -/
def MaybeInfiniteInt.min (a b : MaybeInfiniteInt) : MaybeInfiniteInt :=
  if MaybeInfiniteInt.lt a b then a else b

/-- `MaybeInfiniteInt::minus_one`.  `none` models the `bug!()` panic reached on
`Finite(0)` (`0u128.checked_sub(1)` is `None`). -/
def MaybeInfiniteInt.minus_one : MaybeInfiniteInt → Option MaybeInfiniteInt
  | .Finite n => if n = 0 then none else some (.Finite (n - 1))
  | .JustAfterMax => some (.Finite u128MAX)
  | x => some x

/-- `MaybeInfiniteInt::plus_one`.  `Finite(u128::MAX).checked_add(1)` is `None`
and maps to `JustAfterMax`; `none` models the `bug!()` panic on `JustAfterMax`. -/
def MaybeInfiniteInt.plus_one : MaybeInfiniteInt → Option MaybeInfiniteInt
  | .Finite n => if n = u128MAX then some .JustAfterMax else some (.Finite (n + 1))
  | .JustAfterMax => none
  | x => some x

/-- `struct IntRange`: a half-open interval `[lo, hi)` over the biased order.
Well-formed ranges satisfy `lo < hi`, `lo ≠ PosInfinity`, `hi ≠ NegInfinity`. -/
structure IntRange : Type where
  lo : MaybeInfiniteInt
  hi : MaybeInfiniteInt
deriving DecidableEq, Repr

/-- Membership of a point in the half-open interval `[lo, hi)`. -/
def IntRange.contains (r : IntRange) (v : MaybeInfiniteInt) : Bool :=
  MaybeInfiniteInt.le r.lo v && MaybeInfiniteInt.lt v r.hi

/-- `IntRange::is_subrange`. -/
def IntRange.is_subrange (self other : IntRange) : Bool :=
  MaybeInfiniteInt.le other.lo self.lo && MaybeInfiniteInt.le self.hi other.hi

/-- `IntRange::is_singleton`: `lo.plus_one() == hi` (the source calls the panicking
`plus_one`; on a well-formed range `lo` is never `JustAfterMax` when this matters). -/
def IntRange.is_singleton (self : IntRange) : Bool :=
  self.lo.plus_one = some self.hi

/-- `IntRange::intersection`. -/
def IntRange.intersection (self other : IntRange) : Option IntRange :=
  if MaybeInfiniteInt.lt self.lo other.hi && MaybeInfiniteInt.lt other.lo self.hi then
    some ⟨MaybeInfiniteInt.max self.lo other.lo, MaybeInfiniteInt.min self.hi other.hi⟩
  else
    none

/-- `enum Presence`. -/
inductive Presence : Type where
  | Unseen : Presence
  | Seen : Presence
deriving DecidableEq, Repr

/-- Comparison used by `boundaries.sort_unstable()`: the derived lexicographic order
on `(MaybeInfiniteInt, isize)` pairs (for equal boundary values the order of the
deltas is irrelevant to the output, as the source comments note). -/
def evLE (a b : MaybeInfiniteInt × Int) : Bool :=
  MaybeInfiniteInt.lt a.1 b.1 || (a.1 = b.1 && a.2 ≤ b.2)

/-- Insertion of an element into a sorted list, for `sortBy` below. -/
def insertSorted {α : Type} (le : α → α → Bool) (x : α) : List α → List α
  | [] => [x]
  | y :: ys => if le x y then x :: y :: ys else y :: insertSorted le x ys

/-- Insertion sort.  `boundaries.sort_unstable()` in the source may be any
comparison sort; insertion sort is used here so that the model evaluates by
kernel reduction. -/
def sortBy {α : Type} (le : α → α → Bool) : List α → List α
  | [] => []
  | x :: xs => insertSorted le x (sortBy le xs)

/-- The walk over sorted boundary events in `IntRange::split`: starting from
`prev_bdy` with an accumulated parenthesis count, emit `(presence, [prev, bdy))`
for each pair of adjacent distinct boundaries, then apply the delta. -/
def splitEmit : MaybeInfiniteInt → Int → List (MaybeInfiniteInt × Int) →
    List (Presence × IntRange)
  | _, _, [] => []
  | prev, count, (bdy, delta) :: rest =>
    if prev = bdy then
      splitEmit bdy (count + delta) rest
    else
      (if count > 0 then Presence.Seen else Presence.Unseen, ⟨prev, bdy⟩)
        :: splitEmit bdy (count + delta) rest

/-- `IntRange::split`: intersect every column range with `self`, flatten into
`(lo, +1)`/`(hi, -1)` events, sort, append a terminal event at `self.hi`, and walk. -/
def IntRange.split (self : IntRange) (column_ranges : List IntRange) :
    List (Presence × IntRange) :=
  let boundaries : List (MaybeInfiniteInt × Int) :=
    (column_ranges.filterMap (fun r => self.intersection r)).flatMap
      (fun r => [(r.lo, 1), (r.hi, -1)])
  splitEmit self.lo 0 (sortBy evLE boundaries ++ [(self.hi, 0)])

/-- `enum SliceKind`. -/
inductive SliceKind : Type where
  | FixedLen (n : Nat) : SliceKind
  | VarLen (prefixLen suffixLen : Nat) : SliceKind
deriving DecidableEq, Repr

/-- `SliceKind::arity`. -/
def SliceKind.arity : SliceKind → Nat
  | .FixedLen length => length
  | .VarLen prefixLen suffixLen => prefixLen + suffixLen

/-- `SliceKind::covers_length`. -/
def SliceKind.covers_length : SliceKind → Nat → Bool
  | .FixedLen len, other_len => len = other_len
  | .VarLen prefixLen suffixLen, other_len => prefixLen + suffixLen ≤ other_len

/-- `struct Slice`. -/
structure Slice : Type where
  array_len : Option Nat
  kind : SliceKind
deriving DecidableEq, Repr

/-- `Slice::new`: a `VarLen` pattern with an empty middle on an array of known
length is normalized to `FixedLen`. -/
def Slice.new (array_len : Option Nat) (kind : SliceKind) : Slice :=
  match array_len, kind with
  | some len, .VarLen prefixLen suffixLen =>
    if prefixLen + suffixLen ≥ len then ⟨some len, .FixedLen len⟩
    else ⟨some len, .VarLen prefixLen suffixLen⟩
  | _, _ => ⟨array_len, kind⟩

/-- `Slice::arity`. -/
def Slice.arity (self : Slice) : Nat := self.kind.arity

/-- `Slice::is_covered_by`. -/
def Slice.is_covered_by (self other : Slice) : Bool :=
  other.kind.covers_length self.arity

/-- The state accumulated by the loop over `column_slices` in `Slice::split`:
`max_prefix_len`/`max_suffix_len` (only updated for a `VarLen` self), the largest
fixed length, the smallest variable-length arity seen (initialized to the
`usize::MAX` sentinel), and the set of fixed lengths marked as seen. -/
structure SliceSplitState : Type where
  max_prefix_len : Nat
  max_suffix_len : Nat
  max_fixed_len : Nat
  min_var_len : Nat
  seen_fixed_lens : List Nat
deriving Repr

/-- The loop body over `column_slices` for a `VarLen` self of arity `arity`. -/
def sliceSplitStepVar (arity : Nat) (st : SliceSplitState) (s : Slice) : SliceSplitState :=
  match s.kind with
  | .FixedLen len =>
    { st with
      max_fixed_len := Nat.max st.max_fixed_len len
      seen_fixed_lens :=
        if arity ≤ len then len :: st.seen_fixed_lens else st.seen_fixed_lens }
  | .VarLen pr sf =>
    { st with
      max_prefix_len := Nat.max st.max_prefix_len pr
      max_suffix_len := Nat.max st.max_suffix_len sf
      min_var_len := Nat.min st.min_var_len (pr + sf) }

/-- The loop body over `column_slices` for a `FixedLen` self of arity `arity`. -/
def sliceSplitStepFixed (arity : Nat) (st : SliceSplitState) (s : Slice) : SliceSplitState :=
  match s.kind with
  | .FixedLen len =>
    { st with
      seen_fixed_lens :=
        if len = arity then len :: st.seen_fixed_lens else st.seen_fixed_lens }
  | .VarLen pr sf =>
    { st with min_var_len := Nat.min st.min_var_len (pr + sf) }

/-- `Slice::split`. -/
def Slice.split (self : Slice) (column_slices : List Slice) : List (Presence × Slice) :=
  let arity := self.arity
  let (st, max_slice, smaller_lengths) :=
    match self.kind with
    | .VarLen p0 s0 =>
      let st0 : SliceSplitState :=
        ⟨p0, s0, 0, usizeMAX, []⟩
      let st := column_slices.foldl (sliceSplitStepVar arity) st0
      let st :=
        if st.max_fixed_len + 1 ≥ st.max_prefix_len + st.max_suffix_len then
          { st with max_prefix_len := st.max_fixed_len + 1 - st.max_suffix_len }
        else st
      let max_slice := SliceKind.VarLen st.max_prefix_len st.max_suffix_len
      let max_slice :=
        match self.array_len with
        | some len => if max_slice.arity ≥ len then SliceKind.FixedLen len else max_slice
        | none => max_slice
      let smaller_lengths :=
        match self.array_len with
        | some _ => []
        | none => List.range' self.arity (max_slice.arity - self.arity)
      (st, max_slice, smaller_lengths)
    | .FixedLen _ =>
      let st0 : SliceSplitState := ⟨0, 0, 0, usizeMAX, []⟩
      let st := column_slices.foldl (sliceSplitStepFixed arity) st0
      (st, self.kind, [])
  (smaller_lengths.map SliceKind.FixedLen ++ [max_slice]).map (fun kind =>
    let a := kind.arity
    let seen :=
      if st.min_var_len ≤ a || st.seen_fixed_lens.contains a then Presence.Seen
      else Presence.Unseen
    (seen, Slice.new self.array_len kind))

/-- `rustc_hir::RangeEnd`. -/
inductive RangeEnd : Type where
  | Included : RangeEnd
  | Excluded : RangeEnd
deriving DecidableEq, Repr

/-- Aliases used inside namespaces where a constructor name shadows the type. -/
abbrev BoolT := Bool

/-- Alias for `IntRange` (see `BoolT`). -/
abbrev IntRangeT := IntRange

/-- Alias for `Slice` (see `BoolT`). -/
abbrev SliceT := Slice

/-- `enum Constructor`.  `Str` carries the opaque constant handle (`mir::Const`)
as a number compared only for equality; `Opaque` carries its globally unique
id.  The `IeeeFloat` endpoints of `F32Range`/`F64Range` enter this file only
through `ge` and `partial_cmp`, which are total on the non-NaN values pattern
lowering produces (NaN cannot be written in a range pattern), so each endpoint
is embedded as its rank in that total order. -/
inductive Constructor : Type where
  | Single : Constructor
  | Variant (idx : Nat) : Constructor
  | Bool (b : BoolT) : Constructor
  | IntRange (r : IntRangeT) : Constructor
  | F32Range (lo hi : Nat) (rend : RangeEnd) : Constructor
  | F64Range (lo hi : Nat) (rend : RangeEnd) : Constructor
  | Str (c : Nat) : Constructor
  | Slice (s : SliceT) : Constructor
  | Opaque (id : Nat) : Constructor
  | Or : Constructor
  | Wildcard : Constructor
  | NonExhaustive : Constructor
  | Hidden : Constructor
  | Missing : Constructor
deriving DecidableEq, Repr

/-- `Constructor::is_wildcard`. -/
def Constructor.is_wildcard : Constructor → BoolT
  | .Wildcard => true
  | _ => false

/-- Whether the constructor is an `Opaque(..)` (the pattern match at the top of
`ConstructorSet::split`). -/
def Constructor.isOpaque : Constructor → BoolT
  | .Opaque _ => true
  | _ => false

/-- `Constructor::as_variant`. -/
def Constructor.as_variant : Constructor → Option Nat
  | .Variant i => some i
  | _ => none

/-- `Constructor::as_bool`. -/
def Constructor.as_bool : Constructor → Option BoolT
  | .Bool b => some b
  | _ => none

/-- `Constructor::as_int_range`. -/
def Constructor.as_int_range : Constructor → Option IntRangeT
  | .IntRange r => some r
  | _ => none

/-- `Constructor::as_slice`. -/
def Constructor.as_slice : Constructor → Option SliceT
  | .Slice s => some s
  | _ => none

/-- `Constructor::is_covered_by`: whether `self` is a subset of `other`.
`none` models the two `span_bug!` panics: `Wildcard` appearing as `self`, and
a mismatched pair of constructors.  The match arms are in source order. -/
def Constructor.is_covered_by : Constructor → Constructor → Option BoolT
  | .Wildcard, _ => none
  | _, .Wildcard => some true
  | .Missing, _ => some false
  | .NonExhaustive, _ => some false
  | .Hidden, _ => some false
  | .Single, .Single => some true
  | .Variant i, .Variant j => some (i = j)
  | .Bool a, .Bool b => some (a = b)
  | .IntRange r1, .IntRange r2 => some (r1.is_subrange r2)
  | .F32Range self_from self_to self_rend, .F32Range other_from other_to other_rend =>
    some (decide (other_from ≤ self_from) &&
      (decide (self_to < other_to) ||
        (decide (self_to = other_to) && decide (other_rend = self_rend))))
  | .F64Range self_from self_to self_rend, .F64Range other_from other_to other_rend =>
    some (decide (other_from ≤ self_from) &&
      (decide (self_to < other_to) ||
        (decide (self_to = other_to) && decide (other_rend = self_rend))))
  | .Str a, .Str b => some (a = b)
  | .Slice a, .Slice b => some (a.is_covered_by b)
  | .Opaque i, .Opaque j => some (i = j)
  | .Opaque _, _ => some false
  | _, .Opaque _ => some false
  | _, _ => none

/-- `enum ConstructorSet`. -/
inductive ConstructorSet : Type where
  | Single : ConstructorSet
  | Variants (visible_variants hidden_variants : List Nat) (non_exhaustive : Bool) :
      ConstructorSet
  | Bool : ConstructorSet
  | Integers (range_1 : IntRangeT) (range_2 : Option IntRangeT) : ConstructorSet
  | Slice (array_len : Option Nat) : ConstructorSet
  | SliceOfEmpty : ConstructorSet
  | Unlistable : ConstructorSet
  | Uninhabited : ConstructorSet
deriving DecidableEq, Repr

/-- `struct SplitConstructorSet`. -/
structure SplitConstructorSet : Type where
  present : List Constructor
  missing : List Constructor
deriving DecidableEq, Repr

/-- `collect::<Option<Vec<_>>>` over a fallible projection: `none` as soon as
one element fails (models the `unwrap()` panics in `ConstructorSet::split`). -/
def mapMOpt {α β : Type} (f : α → Option β) : List α → Option (List β)
  | [] => some []
  | x :: xs => do
    let y ← f x
    let ys ← mapMOpt f xs
    some (y :: ys)

/-- `ConstructorSet::split`.  The column `ctors` is first filtered: `Opaque`s go
to `present` verbatim, wildcards are dropped, the rest are `seen`.  The two
booleans model `pcx.cx.tcx.features().exhaustive_patterns` and
`pcx.is_top_level`.  `none` models the `unwrap()` panics on an ill-typed
column. -/
def ConstructorSet.split (self : ConstructorSet)
    (exhaustive_patterns is_top_level : BoolT) (ctors : List Constructor) :
    Option SplitConstructorSet := do
  let presentOpaques := ctors.filter (fun c => c.isOpaque)
  let seen := ctors.filter (fun c => !c.isOpaque && !c.is_wildcard)
  match self with
  | .Single =>
    if seen.isEmpty then
      some ⟨presentOpaques, [.Single]⟩
    else
      some ⟨presentOpaques ++ [.Single], []⟩
  | .Variants visible_variants hidden_variants non_exhaustive => do
    let seen_set ← mapMOpt Constructor.as_variant seen
    let presentVisible :=
      (visible_variants.filter (fun v => seen_set.contains v)).map Constructor.Variant
    let missingVisible :=
      (visible_variants.filter (fun v => !seen_set.contains v)).map Constructor.Variant
    let presentHidden :=
      (hidden_variants.filter (fun v => seen_set.contains v)).map Constructor.Variant
    let skipped_a_hidden_variant :=
      hidden_variants.any (fun v => !seen_set.contains v)
    some
      ⟨presentOpaques ++ presentVisible ++ presentHidden,
        missingVisible ++ (if skipped_a_hidden_variant then [.Hidden] else [])
          ++ (if non_exhaustive then [.NonExhaustive] else [])⟩
  | .Bool => do
    let bools ← mapMOpt Constructor.as_bool seen
    let seen_false := bools.contains false
    let seen_true := bools.contains true
    some
      ⟨presentOpaques ++ (if seen_false then [.Bool false] else [])
          ++ (if seen_true then [.Bool true] else []),
        (if seen_false then [] else [.Bool false])
          ++ (if seen_true then [] else [.Bool true])⟩
  | .Integers range_1 range_2 => do
    let seen_ranges ← mapMOpt Constructor.as_int_range seen
    let out1 := range_1.split seen_ranges
    let out2 := (range_2.map (fun r2 => r2.split seen_ranges)).getD []
    some
      ⟨presentOpaques
          ++ ((out1 ++ out2).filter (fun pr => pr.1 = Presence.Seen)).map
            (fun pr => Constructor.IntRange pr.2),
        ((out1 ++ out2).filter (fun pr => pr.1 = Presence.Unseen)).map
          (fun pr => Constructor.IntRange pr.2)⟩
  | .Slice array_len => do
    let seen_slices ← mapMOpt Constructor.as_slice seen
    let base_slice := Slice.new array_len (.VarLen 0 0)
    let out := base_slice.split seen_slices
    some
      ⟨presentOpaques
          ++ (out.filter (fun pr => pr.1 = Presence.Seen)).map
            (fun pr => Constructor.Slice pr.2),
        (out.filter (fun pr => pr.1 = Presence.Unseen)).map
          (fun pr => Constructor.Slice pr.2)⟩
  | .SliceOfEmpty => do
    let seen_slices ← mapMOpt Constructor.as_slice seen
    let base_slice := Slice.new none (.VarLen 0 0)
    let out := base_slice.split seen_slices
    some
      ⟨presentOpaques
          ++ (out.filter (fun pr => pr.1 = Presence.Seen)).map
            (fun pr => Constructor.Slice pr.2),
        (out.filterMap (fun pr =>
          if pr.1 = Presence.Unseen ∧ pr.2.arity = 0 then
            some (Constructor.Slice (Slice.new none (.FixedLen 0)))
          else none))⟩
  | .Unlistable =>
    some ⟨presentOpaques ++ seen, [.NonExhaustive]⟩
  | .Uninhabited =>
    if !exhaustive_patterns && !is_top_level then
      some ⟨presentOpaques, [.NonExhaustive]⟩
    else
      some ⟨presentOpaques, []⟩

/-- The fragment of `rustc_middle::ty::Ty` that `deconstruct_pat.rs` inspects.
`sInt`/`uInt` carry the bit width and whether the type is pointer-sized
(`isize`/`usize`).  For ADTs, the results of the type-context queries the file
consumes (spec §6.1/§6.3) are carried on the type: `uninhQ` is the
`is_uninhabited` query, `nonExhF` the foreign-`#[non_exhaustive]` query, and
each variant is `(nonhidden normalized field types, hidden?, inhabited?)`,
where hidden? is `is_unstable || is_doc_hidden-and-foreign` and inhabited? the
variant's instantiated inhabited predicate. -/
inductive Ty : Type where
  | bool : Ty
  | char : Ty
  | sInt (bits : Nat) (ptrSized : Bool) : Ty
  | uInt (bits : Nat) (ptrSized : Bool) : Ty
  | str : Ty
  | float (isF64 : Bool) : Ty
  | tuple (fields : List Ty) : Ty
  | ref (t : Ty) : Ty
  | array (elem : Ty) (len : Option Nat) : Ty
  | slice (elem : Ty) : Ty
  | adt (isBox isEnum uninhQ nonExhF : Bool) (args : List Ty)
      (variants : List (List Ty × Bool × Bool)) : Ty
  | never : Ty
deriving Repr

/-- Modelled from the spec: the type-context query `is_uninhabited` (§6.1), which
is implemented outside this file (in `rustc_middle`).  `never` and ADTs flagged
uninhabited are uninhabited; a tuple is uninhabited when a component is; a
nonempty array of an uninhabited element type is uninhabited; references,
slices and primitives are inhabited. -/
def Ty.is_uninhabited : Ty → Bool
  | .never => true
  | .adt _ _ uninhQ _ _ _ => uninhQ
  | .tuple fields => fields.attach.any (fun t => Ty.is_uninhabited t.1)
  | .array elem (some n) => n ≠ 0 && Ty.is_uninhabited elem
  | _ => false
decreasing_by
  all_goals simp_wf
  all_goals first
    | (have hsz := List.sizeOf_lt_of_mem t.2
       omega)
    | omega

/-- `MaybeInfiniteInt::signed_bias`: `1 << (bits-1)` for signed integer types,
`0` otherwise. -/
def MaybeInfiniteInt.signed_bias : Ty → Nat
  | .sInt bits _ => 1 <<< (bits - 1)
  | _ => 0

/-- `MaybeInfiniteInt::new_finite`: XOR the bit representation with the signed
bias so the unsigned order matches the natural order of the type. -/
def MaybeInfiniteInt.new_finite (ty : Ty) (bits : Nat) : MaybeInfiniteInt :=
  .Finite (bits ^^^ MaybeInfiniteInt.signed_bias ty)

/-- `IntRange::from_range`; `none` models the `bug!` on a malformed (`lo ≥ hi`)
range, and the (unreachable in practice) `plus_one` panic. -/
def IntRange.from_range (lo hi : MaybeInfiniteInt) (rend : RangeEnd) :
    Option IntRange := do
  let hi ← match rend with
    | .Included => hi.plus_one
    | .Excluded => some hi
  if MaybeInfiniteInt.lt lo hi then some ⟨lo, hi⟩ else none

/-- `IntRange::from_bits`. -/
def IntRange.from_bits (ty : Ty) (bits : Nat) : Option IntRange := do
  let x := MaybeInfiniteInt.new_finite ty bits
  let h ← x.plus_one
  some ⟨x, h⟩

/-- The two feature gates consulted by this file. -/
structure Features : Type where
  precise_pointer_size_matching : Bool
  exhaustive_patterns : Bool
deriving DecidableEq, Repr

/-- The local closure `make_range` of `ConstructorSet::for_ty`:
an inclusive range between two unbiased bit values. -/
def makeRange (ty : Ty) (start stop : Nat) : Option IntRange :=
  IntRange.from_range (MaybeInfiniteInt.new_finite ty start)
    (MaybeInfiniteInt.new_finite ty stop) RangeEnd.Included

/-- `ConstructorSet::for_ty`.  The match arms are in source order; `none` models
panics (none is reachable on well-formed types). -/
def ConstructorSet.for_ty (fl : Features) (ty : Ty) : Option ConstructorSet :=
  match ty with
  | .bool => some .Bool
  | .char => do
    let r1 ← makeRange ty 0x0000 0xD7FF
    let r2 ← makeRange ty 0xE000 0x10FFFF
    some (.Integers r1 (some r2))
  | .sInt bits ptrSized =>
    if ptrSized && !fl.precise_pointer_size_matching then
      some (.Integers ⟨.NegInfinity, .PosInfinity⟩ none)
    else do
      let mn := 1 <<< (bits - 1)
      let mx := mn - 1
      let r ← makeRange ty mn mx
      some (.Integers r none)
  | .uInt bits ptrSized =>
    if ptrSized && !fl.precise_pointer_size_matching then
      some (.Integers ⟨MaybeInfiniteInt.new_finite ty 0, .PosInfinity⟩ none)
    else do
      let mx := 2 ^ bits - 1
      let r ← makeRange ty 0 mx
      some (.Integers r none)
  | .array elem (some len) =>
    if len ≠ 0 && elem.is_uninhabited then some .Uninhabited
    else some (.Slice (some len))
  | .array elem none =>
    if elem.is_uninhabited then some .SliceOfEmpty else some (.Slice none)
  | .slice elem =>
    if elem.is_uninhabited then some .SliceOfEmpty else some (.Slice none)
  | .adt _ isEnum uninhQ nonExhF _ variants =>
    if isEnum then
      if variants.isEmpty && !nonExhF then some .Uninhabited
      else
        let enumerated := variants.enum
        let kept := enumerated.filter (fun iv => !fl.exhaustive_patterns || iv.2.2.2)
        let hiddenV := (kept.filter (fun iv => iv.2.2.1)).map (fun iv => iv.1)
        let visibleV := (kept.filter (fun iv => !iv.2.2.1)).map (fun iv => iv.1)
        some (.Variants visibleV hiddenV nonExhF)
    else if uninhQ then some .Uninhabited
    else some .Single
  | .never => some .Uninhabited
  | .tuple fields =>
    if (Ty.tuple fields).is_uninhabited then some .Uninhabited else some .Single
  | .ref t =>
    if (Ty.ref t).is_uninhabited then some .Uninhabited else some .Single
  | .str => some .Unlistable
  | .float _ => some .Unlistable

/-- `struct DeconstructedPat`: a pattern as a constructor applied to field
sub-patterns, with its type and the `reachable` cell (here an immutable field;
mutation is modelled by returning an updated pattern). -/
inductive DeconstructedPat : Type where
  | mk (ctor : Constructor) (fields : List DeconstructedPat) (ty : Ty)
      (reachable : Bool) : DeconstructedPat
deriving Repr

/-- `DeconstructedPat::ctor`. -/
def DeconstructedPat.ctor : DeconstructedPat → Constructor
  | .mk c _ _ _ => c

/-- The `fields` of a deconstructed pattern (`Fields::iter_patterns`). -/
def DeconstructedPat.fields : DeconstructedPat → List DeconstructedPat
  | .mk _ f _ _ => f

/-- `DeconstructedPat::ty`. -/
def DeconstructedPat.ty : DeconstructedPat → Ty
  | .mk _ _ t _ => t

/-- The `reachable` cell's current value. -/
def DeconstructedPat.reachableFlag : DeconstructedPat → Bool
  | .mk _ _ _ r => r

/-- `DeconstructedPat::wildcard`. -/
def DeconstructedPat.wildcard (ty : Ty) : DeconstructedPat :=
  .mk .Wildcard [] ty false

/-- `DeconstructedPat::is_or_pat`. -/
def DeconstructedPat.is_or_pat (self : DeconstructedPat) : Bool :=
  self.ctor = .Or

/-- `Constructor::variant_index_for_adt`; `none` models the failed
`assert!(!adt.is_enum())` and the `bug!` on other constructors.
`FIRST_VARIANT` is index 0. -/
def Constructor.variant_index_for_adt (self : Constructor) (isEnum : BoolT) :
    Option Nat :=
  match self with
  | .Variant idx => some idx
  | .Single => if isEnum then none else some 0
  | _ => none

/-- `Constructor::arity`: the number of fields of this constructor at type
`pcx_ty`; `none` models the `bug!` panics (`Or`, a mismatched type). -/
def Constructor.arity (pcx_ty : Ty) (self : Constructor) : Option Nat :=
  match self with
  | .Single | .Variant _ =>
    match pcx_ty with
    | .tuple fs => some fs.length
    | .ref _ => some 1
    | .adt isBox isEnum _ _ _ variants =>
      if isBox then some 1
      else do
        let idx ← self.variant_index_for_adt isEnum
        let v ← variants[idx]?
        some v.1.length
    | _ => none
  | .Slice s => some s.arity
  | .Bool _ | .IntRange _ | .F32Range _ _ _ | .F64Range _ _ _ | .Str _ | .Opaque _
  | .NonExhaustive | .Hidden | .Missing | .Wildcard => some 0
  | .Or => none

/-- `Fields::wildcards_from_tys`. -/
def wildcards_from_tys (tys : List Ty) : List DeconstructedPat :=
  tys.map (fun ty => DeconstructedPat.wildcard ty)

/-- `Fields::wildcards`: a list of wildcard fields for the given constructor at
type `pcx_ty`; its length equals `Constructor::arity`.  `none` models the
`bug!` panics. -/
def Fields.wildcards (pcx_ty : Ty) (constructor : Constructor) :
    Option (List DeconstructedPat) :=
  match constructor with
  | .Single | .Variant _ =>
    match pcx_ty with
    | .tuple fs => some (wildcards_from_tys fs)
    | .ref rty => some (wildcards_from_tys [rty])
    | .adt isBox isEnum _ _ args variants =>
      if isBox then do
        let t0 ← args[0]?
        some (wildcards_from_tys [t0])
      else do
        let idx ← constructor.variant_index_for_adt isEnum
        let v ← variants[idx]?
        some (wildcards_from_tys v.1)
    | _ => none
  | .Slice slice =>
    match pcx_ty with
    | .slice elem | .array elem _ =>
      some ((List.range slice.arity).map (fun _ => DeconstructedPat.wildcard elem))
    | _ => none
  | .Bool _ | .IntRange _ | .F32Range _ _ _ | .F64Range _ _ _ | .Str _ | .Opaque _
  | .NonExhaustive | .Hidden | .Missing | .Wildcard => some []
  | .Or => none

/-- `DeconstructedPat::specialize`: this pattern's fields viewed through
`other_ctor` (which must be covered by `self.ctor`).  `pcx_ty` is `pcx.ty`.
`none` models the `bug!` panics. -/
def DeconstructedPat.specialize (self : DeconstructedPat) (pcx_ty : Ty)
    (other_ctor : Constructor) : Option (List DeconstructedPat) :=
  match self.ctor, other_ctor with
  | .Wildcard, _ => Fields.wildcards pcx_ty other_ctor
  | .Slice self_slice, .Slice other_slice =>
    if self_slice.arity ≠ other_slice.arity then
      match self_slice.kind with
      | .FixedLen _ => none
      | .VarLen prefixLen suffixLen =>
        match self.ty with
        | .slice inner_ty | .array inner_ty _ =>
          let pre := self.fields.take prefixLen
          let suf := self.fields.drop (self_slice.arity - suffixLen)
          let extra := (List.range (other_slice.arity - self_slice.arity)).map
            (fun _ => DeconstructedPat.wildcard inner_ty)
          some (pre ++ extra ++ suf)
        | _ => none
    else some self.fields
  | _, _ => some self.fields

mutual

/-- `DeconstructedPat::is_reachable`: returns the boolean result together with
the pattern after any flag propagation (the source mutates the `reachable`
cells in place; `set_reachable` on an or-pattern whose alternative is
reachable). -/
def DeconstructedPat.is_reachable : DeconstructedPat → Bool × DeconstructedPat
  | .mk ctor fields ty reachable =>
    if reachable then (true, .mk ctor fields ty reachable)
    else if ctor = .Or then
      match anyReachable fields with
      | (true, fields2) => (true, .mk ctor fields2 ty true)
      | (false, fields2) => (false, .mk ctor fields2 ty false)
    else (false, .mk ctor fields ty reachable)

/-- The short-circuiting `self.iter_fields().any(|f| f.is_reachable())`,
with the flag mutations of the traversed alternatives. -/
def anyReachable : List DeconstructedPat → Bool × List DeconstructedPat
  | [] => (false, [])
  | p :: ps =>
    match DeconstructedPat.is_reachable p with
    | (true, p2) => (true, p2 :: ps)
    | (false, p2) =>
      let r := anyReachable ps
      (r.1, p2 :: r.2)

end

/-- Atoms ("value heads") used to give the split-set invariants an
extensional meaning: booleans, biased integer points, variant indices, slice
lengths, float order-ranks, string constants, opaque ids, the single
constructor, and the "unknown constructor" of non-exhaustive/unlistable
types. -/
inductive Atom : Type where
  | single : Atom
  | bool (b : Bool) : Atom
  | int (v : MaybeInfiniteInt) : Atom
  | variant (i : Nat) : Atom
  | len (n : Nat) : Atom
  | f32 (v : Nat) : Atom
  | f64 (v : Nat) : Atom
  | str (c : Nat) : Atom
  | opaqueC (id : Nat) : Atom
  | unknown : Atom
deriving DecidableEq, Repr

/-- Whether constructor `c` covers atom `a`.  `hidden` is the list of hidden
variant indices of the type and `seenIdx` the variant indices named by the
column: the synthetic `Hidden` constructor stands for the hidden variants the
column elided (spec §3.1 "one or more hidden variants elided in diagnostics"),
so its extension is relative to both.  `Missing` covers nothing (it never
appears in split output); `Wildcard` covers everything. -/
def coversAtom (hidden seenIdx : List Nat) : Constructor → Atom → Bool
  | .Single, .single => true
  | .Variant i, .variant j => i = j
  | .Bool b, .bool b2 => b = b2
  | .IntRange r, .int v => r.contains v
  | .Str a, .str b => a = b
  | .Slice s, .len k => s.kind.covers_length k
  | .F32Range lo hi rend, .f32 v =>
    decide (lo ≤ v) && (decide (v < hi) || (decide (v = hi) && decide (rend = .Included)))
  | .F64Range lo hi rend, .f64 v =>
    decide (lo ≤ v) && (decide (v < hi) || (decide (v = hi) && decide (rend = .Included)))
  | .Opaque i, .opaqueC j => i = j
  | .NonExhaustive, .unknown => true
  | .Hidden, .variant j => hidden.contains j && !seenIdx.contains j
  | .Wildcard, _ => true
  | _, _ => false

/-- The set of atoms inhabiting the type described by a `ConstructorSet`
("the whole type" of the split invariants). -/
def ConstructorSet.universeMem : ConstructorSet → Atom → Prop
  | .Single, .single => True
  | .Bool, .bool _ => True
  | .Variants vis hid _, .variant i => i ∈ vis ∨ i ∈ hid
  | .Variants _ _ ne, .unknown => ne = true
  | .Integers r1 r2, .int v =>
    r1.contains v = true ∨ (∃ r ∈ r2.toList, r.contains v = true)
  | .Slice none, .len _ => True
  | .Slice (some n), .len k => k = n
  | .SliceOfEmpty, .len k => k = 0
  | .Unlistable, .unknown => True
  | _, _ => False

/-- The hidden-variant indices of a constructor set. -/
def hiddenOf : ConstructorSet → List Nat
  | .Variants _ hid _ => hid
  | _ => []

/-- The variant indices named by a column. -/
def columnVariantIdxs (ctors : List Constructor) : List Nat :=
  ctors.filterMap Constructor.as_variant

/-- Well-typedness of a column constructor for a constructor set: the head
constructors a lowered pattern of a matching type can produce (`Opaque` and
`Wildcard` occur at every type; ranges respect the `IntRange` invariant
`lo < hi`). -/
def ColCtorOk : ConstructorSet → Constructor → Prop
  | _, .Opaque _ => True
  | _, .Wildcard => True
  | .Single, c => c = .Single
  | .Variants vis hid _, c => ∃ i, c = .Variant i ∧ (i ∈ vis ∨ i ∈ hid)
  | .Bool, c => ∃ b, c = .Bool b
  | .Integers _ _, c => ∃ r, c = .IntRange r ∧ MaybeInfiniteInt.lt r.lo r.hi = true
  | .Slice _, c => ∃ s, c = .Slice s
  | .SliceOfEmpty, c => ∃ s, c = .Slice s
  | .Unlistable, c => (∃ v, c = .Str v) ∨ (∃ lo hi rend, c = .F32Range lo hi rend) ∨
      (∃ lo hi rend, c = .F64Range lo hi rend)
  | .Uninhabited, _ => False

/-- The well-formedness facts `ConstructorSet::for_ty` guarantees about the
set it returns (the `IntRange` invariant for the integer ranges). -/
def ConstructorSet.wf : ConstructorSet → Prop
  | .Integers r1 r2 =>
    MaybeInfiniteInt.lt r1.lo r1.hi = true ∧
      (∀ r ∈ r2.toList, MaybeInfiniteInt.lt r.lo r.hi = true)
  | _ => True

/-- Invariant 6 of `SplitConstructorSet`, for one element and one column
constructor: the element is fully included in or fully disjoint from it. -/
def InclOrDisj (hid sIdx : List Nat) (e c : Constructor) : Prop :=
  (∀ a, coversAtom hid sIdx e a = true → coversAtom hid sIdx c a = true) ∨
  (∀ a, ¬(coversAtom hid sIdx e a = true ∧ coversAtom hid sIdx c a = true))

theorem MaybeInfiniteInt.le_refl (a : MaybeInfiniteInt) : MaybeInfiniteInt.le a a = true := by
  cases a <;> simp [MaybeInfiniteInt.le, MaybeInfiniteInt.lt]

theorem MaybeInfiniteInt.lt_asymm {a b : MaybeInfiniteInt}
    (h : MaybeInfiniteInt.lt a b = true) : MaybeInfiniteInt.lt b a = false := by
  cases a <;> cases b <;> simp [MaybeInfiniteInt.lt] at * <;> omega

theorem MaybeInfiniteInt.le_of_lt {a b : MaybeInfiniteInt}
    (h : MaybeInfiniteInt.lt a b = true) : MaybeInfiniteInt.le a b = true := by
  simp [MaybeInfiniteInt.le, MaybeInfiniteInt.lt_asymm h]

theorem MaybeInfiniteInt.lt_trans {a b c : MaybeInfiniteInt}
    (h1 : MaybeInfiniteInt.lt a b = true) (h2 : MaybeInfiniteInt.lt b c = true) :
    MaybeInfiniteInt.lt a c = true := by
  cases a <;> cases b <;> cases c <;> simp [MaybeInfiniteInt.lt] at * <;> omega

theorem MaybeInfiniteInt.le_trans {a b c : MaybeInfiniteInt}
    (h1 : MaybeInfiniteInt.le a b = true) (h2 : MaybeInfiniteInt.le b c = true) :
    MaybeInfiniteInt.le a c = true := by
  cases a <;> cases b <;> cases c <;> simp [MaybeInfiniteInt.le, MaybeInfiniteInt.lt] at * <;> omega

theorem MaybeInfiniteInt.lt_of_le_of_lt {a b c : MaybeInfiniteInt}
    (h1 : MaybeInfiniteInt.le a b = true) (h2 : MaybeInfiniteInt.lt b c = true) :
    MaybeInfiniteInt.lt a c = true := by
  cases a <;> cases b <;> cases c <;> simp [MaybeInfiniteInt.le, MaybeInfiniteInt.lt] at * <;> omega

theorem MaybeInfiniteInt.lt_of_lt_of_le {a b c : MaybeInfiniteInt}
    (h1 : MaybeInfiniteInt.lt a b = true) (h2 : MaybeInfiniteInt.le b c = true) :
    MaybeInfiniteInt.lt a c = true := by
  cases a <;> cases b <;> cases c <;> simp [MaybeInfiniteInt.le, MaybeInfiniteInt.lt] at * <;> omega

theorem MaybeInfiniteInt.le_total (a b : MaybeInfiniteInt) :
    MaybeInfiniteInt.le a b = true ∨ MaybeInfiniteInt.le b a = true := by
  cases a <;> cases b <;> simp [MaybeInfiniteInt.le, MaybeInfiniteInt.lt] <;> omega

theorem MaybeInfiniteInt.not_le {a b : MaybeInfiniteInt} :
    MaybeInfiniteInt.le a b = false ↔ MaybeInfiniteInt.lt b a = true := by
  simp [MaybeInfiniteInt.le]

theorem MaybeInfiniteInt.not_lt {a b : MaybeInfiniteInt} :
    MaybeInfiniteInt.lt a b = false ↔ MaybeInfiniteInt.le b a = true := by
  simp [MaybeInfiniteInt.le]

theorem MaybeInfiniteInt.le_antisymm {a b : MaybeInfiniteInt}
    (h1 : MaybeInfiniteInt.le a b = true) (h2 : MaybeInfiniteInt.le b a = true) : a = b := by
  cases a <;> cases b <;> simp [MaybeInfiniteInt.le, MaybeInfiniteInt.lt] at * <;> omega

theorem MaybeInfiniteInt.lt_of_le_of_ne {a b : MaybeInfiniteInt}
    (h1 : MaybeInfiniteInt.le a b = true) (h2 : a ≠ b) :
    MaybeInfiniteInt.lt a b = true := by
  cases a <;> cases b <;> simp [MaybeInfiniteInt.le, MaybeInfiniteInt.lt] at * <;> omega

theorem MaybeInfiniteInt.le_max_left (a b : MaybeInfiniteInt) :
    MaybeInfiniteInt.le a (MaybeInfiniteInt.max a b) = true := by
  unfold MaybeInfiniteInt.max
  split
  · exact MaybeInfiniteInt.le_of_lt (by assumption)
  · exact MaybeInfiniteInt.le_refl a

theorem MaybeInfiniteInt.le_max_right (a b : MaybeInfiniteInt) :
    MaybeInfiniteInt.le b (MaybeInfiniteInt.max a b) = true := by
  unfold MaybeInfiniteInt.max
  split
  · exact MaybeInfiniteInt.le_refl b
  · next h => exact MaybeInfiniteInt.not_lt.mp (by simpa using h)

theorem MaybeInfiniteInt.max_le {a b c : MaybeInfiniteInt}
    (h1 : MaybeInfiniteInt.le a c = true) (h2 : MaybeInfiniteInt.le b c = true) :
    MaybeInfiniteInt.le (MaybeInfiniteInt.max a b) c = true := by
  unfold MaybeInfiniteInt.max
  split <;> assumption

theorem MaybeInfiniteInt.min_le_left (a b : MaybeInfiniteInt) :
    MaybeInfiniteInt.le (MaybeInfiniteInt.min a b) a = true := by
  unfold MaybeInfiniteInt.min
  split
  · exact MaybeInfiniteInt.le_refl a
  · next h => exact MaybeInfiniteInt.not_lt.mp (by simpa using h)

theorem MaybeInfiniteInt.min_le_right (a b : MaybeInfiniteInt) :
    MaybeInfiniteInt.le (MaybeInfiniteInt.min a b) b = true := by
  unfold MaybeInfiniteInt.min
  split
  · exact MaybeInfiniteInt.le_of_lt (by assumption)
  · exact MaybeInfiniteInt.le_refl b

theorem MaybeInfiniteInt.le_min {a b c : MaybeInfiniteInt}
    (h1 : MaybeInfiniteInt.le a b = true) (h2 : MaybeInfiniteInt.le a c = true) :
    MaybeInfiniteInt.le a (MaybeInfiniteInt.min b c) = true := by
  unfold MaybeInfiniteInt.min
  split <;> assumption

/-- C6: `plus_one` sends `Finite(u128::MAX)` to `JustAfterMax` and `minus_one`
sends `JustAfterMax` back to `Finite(u128::MAX)`; on finite values (which are
bounded by `u128::MAX`) the two operations are mutual inverses; neither
operation turns a finite value into `NegInfinity`/`PosInfinity`, and both map
`NegInfinity` and `PosInfinity` to themselves. -/
theorem plus_one_minus_one_finite_boundary_spec :
    MaybeInfiniteInt.plus_one (.Finite u128MAX) = some .JustAfterMax ∧
    MaybeInfiniteInt.minus_one .JustAfterMax = some (.Finite u128MAX) ∧
    (∀ n m : Nat, n ≤ u128MAX → m ≤ u128MAX →
      (MaybeInfiniteInt.plus_one (.Finite n) = some (.Finite m) ↔
        MaybeInfiniteInt.minus_one (.Finite m) = some (.Finite n))) ∧
    (∀ (n : Nat) (y : MaybeInfiniteInt),
      MaybeInfiniteInt.plus_one (.Finite n) = some y →
        y ≠ .NegInfinity ∧ y ≠ .PosInfinity) ∧
    (∀ (n : Nat) (y : MaybeInfiniteInt),
      MaybeInfiniteInt.minus_one (.Finite n) = some y →
        y ≠ .NegInfinity ∧ y ≠ .PosInfinity) ∧
    MaybeInfiniteInt.plus_one .NegInfinity = some .NegInfinity ∧
    MaybeInfiniteInt.plus_one .PosInfinity = some .PosInfinity ∧
    MaybeInfiniteInt.minus_one .NegInfinity = some .NegInfinity ∧
    MaybeInfiniteInt.minus_one .PosInfinity = some .PosInfinity := by
  refine ⟨by simp [MaybeInfiniteInt.plus_one], by simp [MaybeInfiniteInt.minus_one],
    ?_, ?_, ?_, rfl, rfl, rfl, rfl⟩
  · intro n m hn hm
    constructor
    · intro h
      simp only [MaybeInfiniteInt.plus_one] at h
      split at h
      · simp at h
      · simp only [Option.some.injEq, MaybeInfiniteInt.Finite.injEq] at h
        subst h
        simp only [MaybeInfiniteInt.minus_one]
        simp
    · intro h
      simp only [MaybeInfiniteInt.minus_one] at h
      split at h
      · simp at h
      · next hm0 =>
        simp only [Option.some.injEq, MaybeInfiniteInt.Finite.injEq] at h
        simp only [MaybeInfiniteInt.plus_one]
        split
        · next hnmax => omega
        · simp
          omega
  · intro n y h
    simp only [MaybeInfiniteInt.plus_one] at h
    split at h <;> simp only [Option.some.injEq] at h <;> subst h <;> simp
  · intro n y h
    simp only [MaybeInfiniteInt.minus_one] at h
    split at h
    · simp at h
    · simp only [Option.some.injEq] at h
      subst h
      simp

/-- Witness for C6 at concrete inputs: `n = 5`, `m = 6`. -/
theorem plus_one_minus_one_finite_boundary_spec_witness :
    (5 ≤ u128MAX ∧ 6 ≤ u128MAX) ∧
      (MaybeInfiniteInt.plus_one (.Finite 5) = some (.Finite 6) ↔
        MaybeInfiniteInt.minus_one (.Finite 6) = some (.Finite 5)) := by
  have h := plus_one_minus_one_finite_boundary_spec.2.2.1 5 6
    (by norm_num [u128MAX]) (by norm_num [u128MAX])
  exact ⟨⟨by norm_num [u128MAX], by norm_num [u128MAX]⟩, h⟩

/-- C10: `minus_one` panics exactly on `Finite(0)` and `plus_one` panics exactly
on `JustAfterMax`; on every other input both return normally. -/
theorem minus_one_plus_one_panic_spec :
    MaybeInfiniteInt.minus_one (.Finite 0) = none ∧
    MaybeInfiniteInt.plus_one .JustAfterMax = none ∧
    (∀ x : MaybeInfiniteInt, x ≠ .Finite 0 →
      (MaybeInfiniteInt.minus_one x).isSome = true) ∧
    (∀ x : MaybeInfiniteInt, x ≠ .JustAfterMax →
      (MaybeInfiniteInt.plus_one x).isSome = true) := by
  refine ⟨by simp [MaybeInfiniteInt.minus_one], rfl, ?_, ?_⟩
  · intro x hx
    match x, hx with
    | .NegInfinity, _ => rfl
    | .JustAfterMax, _ => rfl
    | .PosInfinity, _ => rfl
    | .Finite n, hx =>
      have hn : n ≠ 0 := fun h => hx (by simp [h])
      simp [MaybeInfiniteInt.minus_one, hn]
  · intro x hx
    match x, hx with
    | .NegInfinity, _ => rfl
    | .PosInfinity, _ => rfl
    | .Finite n, _ =>
      simp only [MaybeInfiniteInt.plus_one]
      split <;> simp

/-- Witness for C10 at concrete inputs. -/
theorem minus_one_plus_one_panic_spec_witness :
    ((MaybeInfiniteInt.Finite 7 ≠ .Finite 0) ∧
      (MaybeInfiniteInt.minus_one (.Finite 7)).isSome = true) ∧
    ((MaybeInfiniteInt.PosInfinity ≠ .JustAfterMax) ∧
      (MaybeInfiniteInt.plus_one .PosInfinity).isSome = true) := by
  refine ⟨⟨by simp, ?_⟩, ⟨by simp, ?_⟩⟩
  · exact minus_one_plus_one_panic_spec.2.2.1 (.Finite 7) (by simp)
  · exact minus_one_plus_one_panic_spec.2.2.2 .PosInfinity (by simp)

/-- C8: `Slice::new(Some n, VarLen(p, s))` normalizes to `FixedLen n` exactly
when `p + s ≥ n` and keeps the kind unchanged in every other case; consequently
any slice built by `Slice::new` whose `array_len` is `Some n` and whose kind is
`VarLen(p, s)` satisfies `p + s < n`. -/
theorem slice_new_normalization_spec :
    (∀ n p s : Nat, p + s ≥ n →
      Slice.new (some n) (.VarLen p s) = ⟨some n, .FixedLen n⟩) ∧
    (∀ n p s : Nat, p + s < n →
      Slice.new (some n) (.VarLen p s) = ⟨some n, .VarLen p s⟩) ∧
    (∀ kind : SliceKind, Slice.new none kind = ⟨none, kind⟩) ∧
    (∀ n m : Nat, Slice.new (some n) (.FixedLen m) = ⟨some n, .FixedLen m⟩) ∧
    (∀ (al : Option Nat) (kind : SliceKind) (n p s : Nat),
      Slice.new al kind = ⟨some n, .VarLen p s⟩ → p + s < n) := by
  refine ⟨?_, ?_, ?_, ?_, ?_⟩
  · intro n p s h
    simp [Slice.new, h]
  · intro n p s h
    simp [Slice.new]
    omega
  · intro kind
    cases kind <;> rfl
  · intro n m
    rfl
  · intro al kind n p s h
    match al, kind with
    | none, k =>
      cases k <;> simp [Slice.new] at h
    | some len, .FixedLen m =>
      simp [Slice.new] at h
    | some len, .VarLen p0 s0 =>
      simp only [Slice.new] at h
      split at h <;> simp_all <;> omega

/-- Witness for C8 at concrete inputs. -/
theorem slice_new_normalization_spec_witness :
    (2 + 3 ≥ 4 ∧ Slice.new (some 4) (.VarLen 2 3) = ⟨some 4, .FixedLen 4⟩) ∧
    (1 + 1 < 4 ∧ Slice.new (some 4) (.VarLen 1 1) = ⟨some 4, .VarLen 1 1⟩) ∧
    (Slice.new (some 4) (.VarLen 1 1) = ⟨some 4, .VarLen 1 1⟩ → 1 + 1 < 4) := by
  refine ⟨⟨by norm_num, slice_new_normalization_spec.1 4 2 3 (by norm_num)⟩,
    ⟨by norm_num, slice_new_normalization_spec.2.1 4 1 1 (by norm_num)⟩,
    fun h => slice_new_normalization_spec.2.2.2.2 (some 4) (.VarLen 1 1) 4 1 1 h⟩

/-- C4: the `is_covered_by` policy table.  Every constructor other than
`Wildcard` is covered by `Wildcard`; `Missing`, `NonExhaustive` and `Hidden`
are covered by nothing else; ranges are compared by interval inclusion; slices
by `covers_length` on the arity (with `covers_length` as specified); `Opaque`s
only by id equality and never against other constructors; and `Wildcard` as
`self` is a programming error (`none`). -/
theorem is_covered_by_policy_spec :
    (∀ c : Constructor, c ≠ .Wildcard →
      Constructor.is_covered_by c .Wildcard = some true) ∧
    (∀ c : Constructor, c ≠ .Wildcard →
      Constructor.is_covered_by .Missing c = some false ∧
      Constructor.is_covered_by .NonExhaustive c = some false ∧
      Constructor.is_covered_by .Hidden c = some false) ∧
    (∀ r1 r2 : IntRange,
      Constructor.is_covered_by (.IntRange r1) (.IntRange r2) =
        some (MaybeInfiniteInt.le r2.lo r1.lo && MaybeInfiniteInt.le r1.hi r2.hi)) ∧
    (∀ a b : Slice,
      Constructor.is_covered_by (.Slice a) (.Slice b) =
        some (b.kind.covers_length a.arity)) ∧
    (∀ n k : Nat, SliceKind.covers_length (.FixedLen n) k = decide (n = k)) ∧
    (∀ p s k : Nat, SliceKind.covers_length (.VarLen p s) k = decide (p + s ≤ k)) ∧
    (∀ i j : Nat,
      Constructor.is_covered_by (.Opaque i) (.Opaque j) = some (decide (i = j))) ∧
    (∀ (i : Nat) (c : Constructor), c ≠ .Wildcard → (∀ j, c ≠ .Opaque j) →
      Constructor.is_covered_by (.Opaque i) c = some false ∧
      Constructor.is_covered_by c (.Opaque i) = some false) ∧
    (∀ c : Constructor, Constructor.is_covered_by .Wildcard c = none) := by
  refine ⟨?_, ?_, fun r1 r2 => rfl, fun a b => rfl, fun n k => rfl, fun p s k => rfl,
    fun i j => rfl, ?_, fun c => by cases c <;> rfl⟩
  · intro c hc
    cases c <;> first | rfl | exact absurd rfl hc
  · intro c hc
    cases c <;> first
      | exact ⟨rfl, rfl, rfl⟩
      | exact absurd rfl hc
  · intro i c hc hop
    cases c <;> first
      | exact ⟨rfl, rfl⟩
      | exact absurd rfl hc
      | (next j => exact absurd rfl (hop j))

/-- Witness for C4 at concrete inputs. -/
theorem is_covered_by_policy_spec_witness :
    (Constructor.Single ≠ .Wildcard ∧
      Constructor.is_covered_by .Single .Wildcard = some true) ∧
    ((Constructor.Bool true ≠ .Wildcard) ∧ (∀ j, Constructor.Bool true ≠ .Opaque j) ∧
      Constructor.is_covered_by (.Opaque 0) (.Bool true) = some false ∧
      Constructor.is_covered_by (.Bool true) (.Opaque 0) = some false) := by
  refine ⟨⟨by simp, is_covered_by_policy_spec.1 .Single (by simp)⟩,
    ⟨by simp, fun j => by simp, ?_⟩⟩
  exact is_covered_by_policy_spec.2.2.2.2.2.2.2.1 0 (.Bool true) (by simp) (fun j => by simp)

theorem anyReachable_fst (l : List DeconstructedPat) :
    (anyReachable l).1 = l.any (fun f => (DeconstructedPat.is_reachable f).1) := by
  induction l with
  | nil => rfl
  | cons p ps ih =>
    simp only [anyReachable, List.any_cons]
    rcases h : DeconstructedPat.is_reachable p with ⟨b, p2⟩
    cases b <;> simp [h, ih]

/-- C9: if at least one alternative of an or-pattern is reachable, then
`is_reachable` on the or-pattern returns true and sets the pattern's own
`reachable` flag; on a non-or pattern `is_reachable` returns exactly the
pattern's own flag. -/
theorem is_reachable_or_propagation_spec (p : DeconstructedPat) :
    (p.ctor = .Or →
      (∃ f ∈ p.fields, (DeconstructedPat.is_reachable f).1 = true) →
      (DeconstructedPat.is_reachable p).1 = true ∧
      (DeconstructedPat.is_reachable p).2.reachableFlag = true) ∧
    (p.ctor ≠ .Or → (DeconstructedPat.is_reachable p).1 = p.reachableFlag) := by
  obtain ⟨ctor, fields, ty, reach⟩ := p
  constructor
  · intro hor hex
    simp only [DeconstructedPat.ctor] at hor
    subst hor
    simp only [DeconstructedPat.fields] at hex
    cases reach with
    | true => simp [DeconstructedPat.is_reachable, DeconstructedPat.reachableFlag]
    | false =>
      have hany : (anyReachable fields).1 = true := by
        rw [anyReachable_fst]
        rw [List.any_eq_true]
        obtain ⟨f, hf, hr⟩ := hex
        exact ⟨f, hf, hr⟩
      simp only [DeconstructedPat.is_reachable, if_neg (by simp : ¬ false = true), if_pos rfl]
      rcases h : anyReachable fields with ⟨b, fields2⟩
      rw [h] at hany
      simp only at hany
      subst hany
      simp [DeconstructedPat.reachableFlag]
  · intro hor
    simp only [DeconstructedPat.ctor] at hor
    cases reach with
    | true => simp [DeconstructedPat.is_reachable, DeconstructedPat.reachableFlag]
    | false =>
      simp only [DeconstructedPat.is_reachable, DeconstructedPat.reachableFlag,
        if_neg (by simp : ¬ false = true), if_neg hor]

/-- Witness for C9: an or-pattern with one reachable alternative. -/
theorem is_reachable_or_propagation_spec_witness :
    ((DeconstructedPat.mk .Or [.mk .Wildcard [] .bool true] .bool false).ctor = .Or) ∧
    (∃ f ∈ (DeconstructedPat.mk .Or [.mk .Wildcard [] .bool true] .bool false).fields,
      (DeconstructedPat.is_reachable f).1 = true) ∧
    ((DeconstructedPat.is_reachable
        (.mk .Or [.mk .Wildcard [] .bool true] .bool false)).1 = true ∧
      (DeconstructedPat.is_reachable
        (.mk .Or [.mk .Wildcard [] .bool true] .bool false)).2.reachableFlag = true) := by
  refine ⟨rfl, ⟨.mk .Wildcard [] .bool true, by simp [DeconstructedPat.fields], rfl⟩, ?_⟩
  exact (is_reachable_or_propagation_spec _).1 rfl
    ⟨.mk .Wildcard [] .bool true, by simp [DeconstructedPat.fields], rfl⟩

theorem wildcards_from_tys_length (tys : List Ty) :
    (wildcards_from_tys tys).length = tys.length := by
  simp [wildcards_from_tys]

theorem wildcards_length {ty : Ty} {c : Constructor} {l : List DeconstructedPat}
    (h : Fields.wildcards ty c = some l) :
    Constructor.arity ty c = some l.length := by
  unfold Fields.wildcards at h
  unfold Constructor.arity
  repeat' split at h
  all_goals first
    | (simp only [Option.some.injEq] at h
       subst h
       simp [wildcards_from_tys_length, Slice.arity])
    | (simp at h; done)
    | (simp only [Option.bind_eq_bind, Option.bind_eq_some] at h
       first
         | (obtain ⟨t0, harg, h⟩ := h
            simp only [Option.some.injEq] at h
            subst h
            simp_all [wildcards_from_tys_length])
         | (obtain ⟨idx, hidx, v, hv, h⟩ := h
            simp only [Option.some.injEq] at h
            subst h
            simp_all [wildcards_from_tys_length]))

theorem wildcards_all_wild {ty : Ty} {c : Constructor} {l : List DeconstructedPat}
    (h : Fields.wildcards ty c = some l) :
    ∀ q ∈ l, q.ctor = .Wildcard ∧ q.fields = [] := by
  have base : ∀ (tys : List Ty), ∀ q ∈ wildcards_from_tys tys,
      q.ctor = .Wildcard ∧ q.fields = [] := by
    intro tys q hq
    simp only [wildcards_from_tys, List.mem_map] at hq
    obtain ⟨t, _, rfl⟩ := hq
    exact ⟨rfl, rfl⟩
  unfold Fields.wildcards at h
  repeat' split at h
  all_goals first
    | (simp only [Option.some.injEq] at h
       subst h
       first
         | exact base _
         | (intro q hq
            simp only [List.mem_map] at hq
            obtain ⟨t, _, rfl⟩ := hq
            exact ⟨rfl, rfl⟩)
         | simp)
    | (simp at h; done)
    | (simp only [Option.bind_eq_bind, Option.bind_eq_some] at h
       first
         | (obtain ⟨t0, harg, h⟩ := h
            simp only [Option.some.injEq] at h
            subst h
            exact base _)
         | (obtain ⟨idx, hidx, v, hv, h⟩ := h
            simp only [Option.some.injEq] at h
            subst h
            exact base _))

/-- C5: if `p.ctor` covers `c` (neither being `Or`) and `p` is well-formed
(its field count equals its constructor's arity), then `p.specialize(c)`
returns a list of length exactly `c.arity`; moreover a `Wildcard` pattern
specializes to one fresh wildcard per field of `c`, and a `VarLen` slice
pattern specialized against a larger-arity slice yields its prefix fields,
then `c.arity − p.arity` fresh wildcards of the element type, then its suffix
fields. -/
theorem specialize_arity_spec (p : DeconstructedPat) (c : Constructor)
    (l : List DeconstructedPat)
    (hcov : Constructor.is_covered_by c p.ctor = some true)
    (hor2 : c ≠ .Or)
    (hfields : Constructor.arity p.ty p.ctor = some p.fields.length)
    (hspec : p.specialize p.ty c = some l) :
    Constructor.arity p.ty c = some l.length ∧
    (p.ctor = .Wildcard →
      Fields.wildcards p.ty c = some l ∧
      ∀ q ∈ l, q.ctor = .Wildcard ∧ q.fields = []) ∧
    (∀ sl s2 : Slice, p.ctor = .Slice sl → c = .Slice s2 → sl.arity ≠ s2.arity →
      ∃ (pl sfl : Nat) (inner : Ty), sl.kind = .VarLen pl sfl ∧
        l = p.fields.take pl
          ++ (List.range (s2.arity - sl.arity)).map
              (fun _ => DeconstructedPat.wildcard inner)
          ++ p.fields.drop (sl.arity - sfl)) := by
  obtain ⟨pc, pfields, pty, pr⟩ := p
  simp only [DeconstructedPat.ctor, DeconstructedPat.ty, DeconstructedPat.fields] at *
  cases pc with
  | Wildcard =>
    have hw : DeconstructedPat.specialize (.mk .Wildcard pfields pty pr) pty c =
        Fields.wildcards pty c := by
      cases c <;> rfl
    rw [hw] at hspec
    refine ⟨wildcards_length hspec, fun _ => ⟨hspec, wildcards_all_wild hspec⟩, ?_⟩
    intro sl s2 hsl
    simp at hsl
  | Slice sl =>
    cases c with
    | Or => exact absurd rfl hor2
    | Slice s2 =>
      simp only [Constructor.is_covered_by, Option.some.injEq] at hcov
      have hfl : sl.arity = pfields.length := by
        simpa [Constructor.arity] using hfields
      by_cases harr : sl.arity = s2.arity
      · have hspec2 : some pfields = some l := by
          simpa [DeconstructedPat.specialize, DeconstructedPat.ctor,
            DeconstructedPat.ty, DeconstructedPat.fields, harr] using hspec
        simp only [Option.some.injEq] at hspec2
        subst hspec2
        refine ⟨?_, fun h => absurd h (by simp), ?_⟩
        · simp only [Constructor.arity, Option.some.injEq]
          omega
        · intro sl' s2' h1 h2 h3
          cases h1
          cases h2
          exact absurd harr h3
      · have hspec2 := hspec
        simp only [DeconstructedPat.specialize, DeconstructedPat.ctor,
          DeconstructedPat.ty, DeconstructedPat.fields, ne_eq, harr,
          not_false_eq_true, if_true, if_pos] at hspec2
        cases hk : sl.kind with
        | FixedLen n => rw [hk] at hspec2; simp at hspec2
        | VarLen pl sfl =>
          rw [hk] at hspec2
          have hcl : pl + sfl ≤ s2.arity := by
            rw [Slice.is_covered_by, hk] at hcov
            simpa [SliceKind.covers_length] using hcov
          have harsl : sl.arity = pl + sfl := by
            rw [Slice.arity, hk]; rfl
          cases pty
          all_goals first
            | (simp at hspec2; done)
            | (rename_i inner
               simp only [Option.some.injEq] at hspec2
               subst hspec2
               refine ⟨?_, fun h => absurd h (by simp), ?_⟩
               · simp only [Constructor.arity, Option.some.injEq]
                 simp only [List.length_append, List.length_take, List.length_replicate,
                   List.length_map, List.length_range, List.length_drop]
                 omega
               · intro sl' s2' h1 h2 h3
                 cases h1
                 cases h2
                 exact ⟨pl, sfl, inner, hk, rfl⟩)
            | (rename_i inner alen
               simp only [Option.some.injEq] at hspec2
               subst hspec2
               refine ⟨?_, fun h => absurd h (by simp), ?_⟩
               · simp only [Constructor.arity, Option.some.injEq]
                 simp only [List.length_append, List.length_take, List.length_replicate,
                   List.length_map, List.length_range, List.length_drop]
                 omega
               · intro sl' s2' h1 h2 h3
                 cases h1
                 cases h2
                 exact ⟨pl, sfl, inner, hk, rfl⟩)
    | Single => simp [Constructor.is_covered_by] at hcov
    | Variant j => simp [Constructor.is_covered_by] at hcov
    | Bool b => simp [Constructor.is_covered_by] at hcov
    | IntRange r => simp [Constructor.is_covered_by] at hcov
    | F32Range lo hi rend => simp [Constructor.is_covered_by] at hcov
    | F64Range lo hi rend => simp [Constructor.is_covered_by] at hcov
    | Str s => simp [Constructor.is_covered_by] at hcov
    | Opaque i => simp [Constructor.is_covered_by] at hcov
    | Wildcard => simp [Constructor.is_covered_by] at hcov
    | NonExhaustive => simp [Constructor.is_covered_by] at hcov
    | Hidden => simp [Constructor.is_covered_by] at hcov
    | Missing => simp [Constructor.is_covered_by] at hcov
  | Single =>
    cases c <;> simp_all [Constructor.is_covered_by, DeconstructedPat.specialize,
      DeconstructedPat.ctor, DeconstructedPat.fields, DeconstructedPat.ty]
  | Variant i =>
    cases c <;> simp_all [Constructor.is_covered_by, DeconstructedPat.specialize,
      DeconstructedPat.ctor, DeconstructedPat.fields, DeconstructedPat.ty]
  | Bool b =>
    cases c <;> simp_all [Constructor.is_covered_by, DeconstructedPat.specialize,
      DeconstructedPat.ctor, DeconstructedPat.fields, DeconstructedPat.ty,
      Constructor.arity]
  | IntRange r =>
    cases c <;> simp_all [Constructor.is_covered_by, DeconstructedPat.specialize,
      DeconstructedPat.ctor, DeconstructedPat.fields, DeconstructedPat.ty,
      Constructor.arity]
  | F32Range lo hi rend =>
    cases c <;> simp_all [Constructor.is_covered_by, DeconstructedPat.specialize,
      DeconstructedPat.ctor, DeconstructedPat.fields, DeconstructedPat.ty,
      Constructor.arity]
  | F64Range lo hi rend =>
    cases c <;> simp_all [Constructor.is_covered_by, DeconstructedPat.specialize,
      DeconstructedPat.ctor, DeconstructedPat.fields, DeconstructedPat.ty,
      Constructor.arity]
  | Str s =>
    cases c <;> simp_all [Constructor.is_covered_by, DeconstructedPat.specialize,
      DeconstructedPat.ctor, DeconstructedPat.fields, DeconstructedPat.ty,
      Constructor.arity]
  | Opaque i =>
    cases c <;> simp_all [Constructor.is_covered_by, DeconstructedPat.specialize,
      DeconstructedPat.ctor, DeconstructedPat.fields, DeconstructedPat.ty,
      Constructor.arity]
  | NonExhaustive =>
    cases c <;> simp_all [Constructor.is_covered_by]
  | Hidden =>
    cases c <;> simp_all [Constructor.is_covered_by]
  | Missing =>
    cases c <;> simp_all [Constructor.is_covered_by]
  | Or =>
    cases c <;> simp_all [Constructor.is_covered_by]

/-- Witness for C5: a wildcard pattern of a one-field tuple type specialized
against `Single`. -/
theorem specialize_arity_spec_witness :
    (Constructor.is_covered_by .Single
        (DeconstructedPat.mk .Wildcard [] (.tuple [.bool]) false).ctor = some true) ∧
    (Constructor.Single ≠ .Or) ∧
    (Constructor.arity (.tuple [.bool])
        (DeconstructedPat.mk .Wildcard [] (.tuple [.bool]) false).ctor = some 0) ∧
    ((DeconstructedPat.mk .Wildcard [] (.tuple [.bool]) false).specialize
        (.tuple [.bool]) .Single = some [DeconstructedPat.wildcard .bool]) ∧
    Constructor.arity (.tuple [.bool]) .Single =
      some [DeconstructedPat.wildcard .bool].length := by
  refine ⟨rfl, by simp, rfl, rfl, ?_⟩
  exact (specialize_arity_spec (.mk .Wildcard [] (.tuple [.bool]) false) .Single
    [DeconstructedPat.wildcard .bool] rfl (by simp) rfl rfl).1

/-- All boundary events of `IntRange::split`: the `(lo, +1)`/`(hi, -1)` pairs of
the intersected column ranges, together with the terminal `(self.hi, 0)`. -/
def eventsOf (R : List IntRange) (self : IntRange) : List (MaybeInfiniteInt × Int) :=
  (R.flatMap (fun r => [(r.lo, 1), (r.hi, -1)])) ++ [(self.hi, 0)]

/-- Sum of the deltas of a list of events. -/
def sumDeltas (l : List (MaybeInfiniteInt × Int)) : Int :=
  (l.map Prod.snd).sum

/-- The output of the walk is a contiguous chain of nonempty ranges from
`start` to `stop`. -/
def chainFrom : MaybeInfiniteInt → MaybeInfiniteInt → List (Presence × IntRange) → Prop
  | start, stop, [] => start = stop
  | start, stop, pe :: rest =>
    pe.2.lo = start ∧ MaybeInfiniteInt.lt pe.2.lo pe.2.hi = true ∧
      chainFrom pe.2.hi stop rest

/-- The coordinate of the last event, or `prev` if there is none. -/
def lastCoord (prev : MaybeInfiniteInt) (evs : List (MaybeInfiniteInt × Int)) :
    MaybeInfiniteInt :=
  match evs.getLast? with
  | none => prev
  | some e => e.1

theorem MaybeInfiniteInt.lt_irrefl (a : MaybeInfiniteInt) :
    MaybeInfiniteInt.lt a a = false := by
  cases a <;> simp [MaybeInfiniteInt.lt]

theorem evLE_trans (a b c : MaybeInfiniteInt × Int)
    (h1 : evLE a b = true) (h2 : evLE b c = true) : evLE a c = true := by
  simp only [evLE, Bool.or_eq_true, Bool.and_eq_true, decide_eq_true_eq] at *
  rcases h1 with h1 | ⟨h1, h1d⟩ <;> rcases h2 with h2 | ⟨h2, h2d⟩
  · exact Or.inl (MaybeInfiniteInt.lt_trans h1 h2)
  · exact Or.inl (h2 ▸ h1)
  · exact Or.inl (h1 ▸ h2)
  · exact Or.inr ⟨h1.trans h2, le_trans h1d h2d⟩

theorem evLE_total (a b : MaybeInfiniteInt × Int) : (evLE a b || evLE b a) = true := by
  simp only [evLE, Bool.or_eq_true, Bool.and_eq_true, decide_eq_true_eq]
  rcases MaybeInfiniteInt.le_total a.1 b.1 with h | h
  · by_cases he : a.1 = b.1
    · rcases Int.le_total a.2 b.2 with hd | hd
      · exact Or.inl (Or.inr ⟨he, hd⟩)
      · exact Or.inr (Or.inr ⟨he.symm, hd⟩)
    · exact Or.inl (Or.inl (MaybeInfiniteInt.lt_of_le_of_ne h he))
  · by_cases he : b.1 = a.1
    · rcases Int.le_total a.2 b.2 with hd | hd
      · exact Or.inl (Or.inr ⟨he.symm, hd⟩)
      · exact Or.inr (Or.inr ⟨he, hd⟩)
    · exact Or.inr (Or.inl (MaybeInfiniteInt.lt_of_le_of_ne h he))

theorem intersection_bounds {self r x : IntRange}
    (hs : MaybeInfiniteInt.lt self.lo self.hi = true)
    (hr : MaybeInfiniteInt.lt r.lo r.hi = true)
    (h : self.intersection r = some x) :
    MaybeInfiniteInt.lt x.lo x.hi = true ∧
    MaybeInfiniteInt.le self.lo x.lo = true ∧
    MaybeInfiniteInt.le x.hi self.hi = true ∧
    MaybeInfiniteInt.le r.lo x.lo = true ∧
    MaybeInfiniteInt.le x.hi r.hi = true := by
  simp only [IntRange.intersection] at h
  split at h
  · next hc =>
    simp only [Bool.and_eq_true] at hc
    obtain ⟨h1, h2⟩ := hc
    simp only [Option.some.injEq] at h
    subst h
    refine ⟨?_, MaybeInfiniteInt.le_max_left _ _, MaybeInfiniteInt.min_le_left _ _,
      MaybeInfiniteInt.le_max_right _ _, MaybeInfiniteInt.min_le_right _ _⟩
    · simp only [MaybeInfiniteInt.max, MaybeInfiniteInt.min]
      split <;> split <;> first
        | exact h2
        | exact hr
        | exact hs
        | exact h1
  · exact absurd h (by simp)

theorem chainFrom_start_le_stop {start stop : MaybeInfiniteInt}
    {l : List (Presence × IntRange)} (h : chainFrom start stop l) :
    MaybeInfiniteInt.le start stop = true := by
  induction l generalizing start with
  | nil => exact h ▸ MaybeInfiniteInt.le_refl _
  | cons pe rest ih =>
    obtain ⟨h1, h2, h3⟩ := h
    exact MaybeInfiniteInt.le_trans (h1 ▸ MaybeInfiniteInt.le_of_lt h2) (ih h3)

theorem chainFrom_bounds {start stop : MaybeInfiniteInt}
    {l : List (Presence × IntRange)} (h : chainFrom start stop l) :
    ∀ pe ∈ l, MaybeInfiniteInt.le start pe.2.lo = true ∧
      MaybeInfiniteInt.lt pe.2.lo pe.2.hi = true ∧
      MaybeInfiniteInt.le pe.2.hi stop = true := by
  induction l generalizing start with
  | nil => intro pe hpe; simp at hpe
  | cons q rest ih =>
    intro pe hpe
    obtain ⟨h1, h2, h3⟩ := h
    rcases List.mem_cons.mp hpe with rfl | hpe
    · exact ⟨h1 ▸ MaybeInfiniteInt.le_refl _, h2, chainFrom_start_le_stop h3⟩
    · obtain ⟨g1, g2, g3⟩ := ih h3 pe hpe
      exact ⟨MaybeInfiniteInt.le_trans (h1 ▸ MaybeInfiniteInt.le_of_lt h2) g1, g2, g3⟩

theorem chainFrom_union {start stop : MaybeInfiniteInt}
    {l : List (Presence × IntRange)} (h : chainFrom start stop l) :
    ∀ v, (∃ pe ∈ l, pe.2.contains v = true) ↔
      (MaybeInfiniteInt.le start v = true ∧ MaybeInfiniteInt.lt v stop = true) := by
  induction l generalizing start with
  | nil =>
    intro v
    subst h
    constructor
    · intro ⟨pe, hpe, _⟩; simp at hpe
    · intro ⟨h1, h2⟩
      have := MaybeInfiniteInt.lt_of_le_of_lt h1 h2
      simp [MaybeInfiniteInt.lt_irrefl] at this
  | cons q rest ih =>
    intro v
    obtain ⟨h1, h2, h3⟩ := h
    constructor
    · intro ⟨pe, hpe, hc⟩
      rcases List.mem_cons.mp hpe with rfl | hpe
      · simp only [IntRange.contains, Bool.and_eq_true] at hc
        exact ⟨h1 ▸ hc.1, MaybeInfiniteInt.lt_of_lt_of_le hc.2 (chainFrom_start_le_stop h3)⟩
      · obtain ⟨g1, g2⟩ := (ih h3 v).mp ⟨pe, hpe, hc⟩
        exact ⟨MaybeInfiniteInt.le_trans (h1 ▸ MaybeInfiniteInt.le_of_lt h2) g1, g2⟩
    · intro ⟨hv1, hv2⟩
      by_cases hvq : MaybeInfiniteInt.lt v q.2.hi = true
      · exact ⟨q, List.mem_cons_self _ _, by
          simp only [IntRange.contains, Bool.and_eq_true]
          exact ⟨h1 ▸ hv1, hvq⟩⟩
      · have hge : MaybeInfiniteInt.le q.2.hi v = true := by
          rcases Bool.eq_false_or_eq_true (MaybeInfiniteInt.lt v q.2.hi) with ht | hf
          · exact absurd ht hvq
          · exact MaybeInfiniteInt.not_lt.mp hf
        obtain ⟨pe, hpe, hc⟩ := (ih h3 v).mpr ⟨hge, hv2⟩
        exact ⟨pe, List.mem_cons_of_mem _ hpe, hc⟩

theorem chainFrom_pairwise_hi_lo {start stop : MaybeInfiniteInt}
    {l : List (Presence × IntRange)} (h : chainFrom start stop l) :
    List.Pairwise (fun a b => MaybeInfiniteInt.le a.2.hi b.2.lo = true) l := by
  induction l generalizing start with
  | nil => exact List.Pairwise.nil
  | cons q rest ih =>
    obtain ⟨h1, h2, h3⟩ := h
    refine List.Pairwise.cons ?_ (ih h3)
    intro pe hpe
    exact (chainFrom_bounds h3 pe hpe).1

theorem MaybeInfiniteInt.lt_eq_false_of_le {a b : MaybeInfiniteInt}
    (h : MaybeInfiniteInt.le a b = true) : MaybeInfiniteInt.lt b a = false := by
  simp only [MaybeInfiniteInt.le, Bool.not_eq_true'] at h
  exact h

theorem lastCoord_cons (prev : MaybeInfiniteInt) (e : MaybeInfiniteInt × Int)
    (rest : List (MaybeInfiniteInt × Int)) :
    lastCoord prev (e :: rest) = lastCoord e.1 rest := by
  cases rest with
  | nil => rfl
  | cons f fs =>
    simp only [lastCoord, List.getLast?_cons_cons]
    rcases h : (f :: fs).getLast? with _ | g
    · rw [List.getLast?_eq_none_iff] at h
      exact absurd h (by simp)
    · rfl

theorem splitEmit_chain :
    ∀ (evs : List (MaybeInfiniteInt × Int)) (prev : MaybeInfiniteInt) (count : Int),
    (∀ e ∈ evs, MaybeInfiniteInt.le prev e.1 = true) →
    List.Pairwise (fun a b => MaybeInfiniteInt.le a.1 b.1 = true) evs →
    chainFrom prev (lastCoord prev evs) (splitEmit prev count evs) := by
  intro evs
  induction evs with
  | nil =>
    intro prev count _ _
    simp [splitEmit, lastCoord, chainFrom]
  | cons e rest ih =>
    intro prev count hlb hpw
    obtain ⟨bdy, delta⟩ := e
    obtain ⟨hhead, htail⟩ := List.pairwise_cons.mp hpw
    rw [lastCoord_cons]
    simp only [splitEmit]
    by_cases hpb : prev = bdy
    · rw [if_pos hpb]
      subst hpb
      exact ih prev (count + delta) hhead htail
    · rw [if_neg hpb]
      refine ⟨rfl, ?_, ih bdy (count + delta) hhead htail⟩
      exact MaybeInfiniteInt.lt_of_le_of_ne (hlb (bdy, delta) (List.mem_cons_self _ _)) hpb

theorem sumDeltas_perm {l l' : List (MaybeInfiniteInt × Int)} (h : l.Perm l') :
    sumDeltas l = sumDeltas l' :=
  List.Perm.sum_eq (h.map Prod.snd)

theorem sumDeltas_append (l l' : List (MaybeInfiniteInt × Int)) :
    sumDeltas (l ++ l') = sumDeltas l + sumDeltas l' := by
  simp [sumDeltas]

theorem past_perm_filter {past evs all : List (MaybeInfiniteInt × Int)}
    (P : MaybeInfiniteInt × Int → Bool)
    (hperm : (past ++ evs).Perm all)
    (hpast : ∀ e ∈ past, P e = true)
    (hevs : ∀ e ∈ evs, ¬ P e = true) :
    past.Perm (all.filter P) := by
  have h1 : (past ++ evs).filter P = past := by
    rw [List.filter_append, List.filter_eq_self.mpr hpast,
      List.filter_eq_nil_iff.mpr hevs, List.append_nil]
  exact h1 ▸ hperm.filter P

theorem sumDeltas_filter_le (self : IntRange) :
    ∀ (R : List IntRange), (∀ r ∈ R, MaybeInfiniteInt.lt r.lo r.hi = true) →
    ∀ p : MaybeInfiniteInt,
    sumDeltas ((eventsOf R self).filter (fun e => MaybeInfiniteInt.le e.1 p)) =
      ((R.filter (fun r => r.contains p)).length : Int) := by
  intro R
  induction R with
  | nil =>
    intro _ p
    simp only [eventsOf, List.flatMap_nil, List.nil_append, List.filter_cons,
      List.filter_nil]
    split <;> simp [sumDeltas]
  | cons r R' ih =>
    intro hR p
    have hr := hR r (List.mem_cons_self _ _)
    have hR' : ∀ x ∈ R', MaybeInfiniteInt.lt x.lo x.hi = true :=
      fun x hx => hR x (List.mem_cons_of_mem _ hx)
    have hrec := ih hR' p
    have hsplit : eventsOf (r :: R') self =
        (r.lo, 1) :: (r.hi, -1) :: eventsOf R' self := by
      simp [eventsOf, List.flatMap_cons]
    rw [hsplit, List.filter_cons, List.filter_cons, List.filter_cons]
    by_cases h1 : MaybeInfiniteInt.le r.lo p = true
    · by_cases h2 : MaybeInfiniteInt.le r.hi p = true
      · have hc : r.contains p = false := by
          simp only [IntRange.contains, MaybeInfiniteInt.lt_eq_false_of_le h2,
            Bool.and_false]
        simp only [h1, h2, if_true, hc, Bool.false_eq_true, if_false]
        simp only [sumDeltas, List.map_cons, List.sum_cons] at hrec ⊢
        omega
      · have hc : r.contains p = true := by
          simp only [IntRange.contains, h1, Bool.true_and]
          rcases Bool.eq_false_or_eq_true (MaybeInfiniteInt.lt p r.hi) with ht | hf
          · exact ht
          · exact absurd (MaybeInfiniteInt.not_lt.mp hf) h2
        simp only [h1, if_true, h2, if_false, hc]
        simp only [sumDeltas, List.map_cons, List.sum_cons, List.filter_cons, hc,
          if_true, List.length_cons] at hrec ⊢
        push_cast
        omega
    · have h2 : ¬ MaybeInfiniteInt.le r.hi p = true := by
        intro hcon
        exact h1 (MaybeInfiniteInt.le_trans (MaybeInfiniteInt.le_of_lt hr) hcon)
      have hc : r.contains p = false := by
        simp only [IntRange.contains]
        rcases Bool.eq_false_or_eq_true (MaybeInfiniteInt.le r.lo p) with ht | hf
        · exact absurd ht h1
        · simp [hf]
      simp only [h1, if_false, h2, hc, Bool.false_eq_true]
      simp only [sumDeltas] at hrec ⊢
      omega

theorem mem_eventsOf_lo {R : List IntRange} {self : IntRange} {r : IntRange}
    (h : r ∈ R) : (r.lo, 1) ∈ eventsOf R self := by
  simp only [eventsOf, List.mem_append, List.mem_flatMap]
  exact Or.inl ⟨r, h, by simp⟩

theorem mem_eventsOf_hi {R : List IntRange} {self : IntRange} {r : IntRange}
    (h : r ∈ R) : (r.hi, -1) ∈ eventsOf R self := by
  simp only [eventsOf, List.mem_append, List.mem_flatMap]
  exact Or.inl ⟨r, h, by simp⟩

theorem splitEmit_presence (R : List IntRange) (self : IntRange)
    (hR : ∀ r ∈ R, MaybeInfiniteInt.lt r.lo r.hi = true) :
    ∀ (evs past : List (MaybeInfiniteInt × Int)) (prev : MaybeInfiniteInt) (count : Int),
    List.Pairwise (fun a b => MaybeInfiniteInt.le a.1 b.1 = true) evs →
    (past ++ evs).Perm (eventsOf R self) →
    (∀ e ∈ past, MaybeInfiniteInt.le e.1 prev = true) →
    (∀ e ∈ evs, MaybeInfiniteInt.le prev e.1 = true) →
    count = sumDeltas past →
    ∀ pe ∈ splitEmit prev count evs,
      ((pe.1 = Presence.Seen ↔ ∃ r ∈ R, pe.2.is_subrange r = true) ∧
       (∀ r ∈ R,
         (MaybeInfiniteInt.le r.lo pe.2.lo = true ∨
           MaybeInfiniteInt.le pe.2.hi r.lo = true) ∧
         (MaybeInfiniteInt.le r.hi pe.2.lo = true ∨
           MaybeInfiniteInt.le pe.2.hi r.hi = true))) := by
  intro evs
  induction evs with
  | nil =>
    intro past prev count _ _ _ _ _ pe hpe
    simp [splitEmit] at hpe
  | cons e rest ih =>
    intro past prev count hpw hperm hpast hlb hcnt pe hpe
    obtain ⟨bdy, delta⟩ := e
    obtain ⟨hhead, htail⟩ := List.pairwise_cons.mp hpw
    have happ : (past ++ [(bdy, delta)]) ++ rest = past ++ (bdy, delta) :: rest := by
      simp
    by_cases hpb : prev = bdy
    · simp only [splitEmit, if_pos hpb] at hpe
      subst hpb
      refine ih (past ++ [(prev, delta)]) prev (count + delta) htail
        (happ ▸ hperm) ?_ hhead ?_ pe hpe
      · intro e he
        rcases List.mem_append.mp he with h | h
        · exact hpast e h
        · simp only [List.mem_singleton] at h
          subst h
          exact MaybeInfiniteInt.le_refl _
      · rw [hcnt, sumDeltas_append]
        simp [sumDeltas]
    · simp only [splitEmit, if_neg hpb] at hpe
      have hltpb : MaybeInfiniteInt.lt prev bdy = true :=
        MaybeInfiniteInt.lt_of_le_of_ne (hlb (bdy, delta) (List.mem_cons_self _ _)) hpb
      have hevsge : ∀ e ∈ (bdy, delta) :: rest,
          MaybeInfiniteInt.le bdy e.1 = true := by
        intro e he
        rcases List.mem_cons.mp he with rfl | he
        · exact MaybeInfiniteInt.le_refl _
        · exact hhead e he
      rcases List.mem_cons.mp hpe with rfl | hpe2
      · have hpastPerm : past.Perm ((eventsOf R self).filter
            (fun e => MaybeInfiniteInt.le e.1 prev)) := by
          refine past_perm_filter _ hperm hpast ?_
          intro e he hcon
          have h1 := hevsge e he
          have h2 := MaybeInfiniteInt.le_trans h1 hcon
          have h3 := MaybeInfiniteInt.lt_eq_false_of_le h2
          rw [h3] at hltpb
          exact absurd hltpb (by simp)
        have hcount : count = ((R.filter (fun r => r.contains prev)).length : Int) := by
          rw [hcnt, sumDeltas_perm hpastPerm, sumDeltas_filter_le self R hR prev]
        constructor
        · constructor
          · intro hseen
            by_cases hpos : count > 0
            · have hex : ∃ r ∈ R, r.contains prev = true := by
                by_contra hnone
                push_neg at hnone
                have hnil : R.filter (fun r => r.contains prev) = [] := by
                  rw [List.filter_eq_nil_iff]
                  intro r hr
                  simp [hnone r hr]
                rw [hnil] at hcount
                simp at hcount
                omega
              obtain ⟨r, hrR, hrc⟩ := hex
              refine ⟨r, hrR, ?_⟩
              simp only [IntRange.contains, Bool.and_eq_true] at hrc
              obtain ⟨hrc1, hrc2⟩ := hrc
              simp only [IntRange.is_subrange, Bool.and_eq_true]
              refine ⟨hrc1, ?_⟩
              have hmem : (r.hi, -1) ∈ past ++ (bdy, delta) :: rest :=
                (hperm.mem_iff).mpr (mem_eventsOf_hi hrR)
              rcases List.mem_append.mp hmem with h | h
              · have h1 := hpast _ h
                have h2 := MaybeInfiniteInt.lt_eq_false_of_le h1
                rw [h2] at hrc2
                exact absurd hrc2 (by simp)
              · exact hevsge _ h
            · simp only [if_neg hpos] at hseen
              exact absurd hseen (by simp)
          · intro ⟨r, hrR, hsub⟩
            simp only [IntRange.is_subrange, Bool.and_eq_true] at hsub
            have hrc : r.contains prev = true := by
              simp only [IntRange.contains, Bool.and_eq_true]
              exact ⟨hsub.1, MaybeInfiniteInt.lt_of_lt_of_le hltpb hsub.2⟩
            have hmemf : r ∈ R.filter (fun r => r.contains prev) :=
              List.mem_filter.mpr ⟨hrR, hrc⟩
            have hlen : 0 < (R.filter (fun r => r.contains prev)).length :=
              List.length_pos.mpr (List.ne_nil_of_mem hmemf)
            have hpos : count > 0 := by
              rw [hcount]
              exact_mod_cast hlen
            simp only [if_pos hpos]
        · intro r hrR
          constructor
          · have hmem : (r.lo, 1) ∈ past ++ (bdy, delta) :: rest :=
              (hperm.mem_iff).mpr (mem_eventsOf_lo hrR)
            rcases List.mem_append.mp hmem with h | h
            · exact Or.inl (hpast _ h)
            · exact Or.inr (hevsge _ h)
          · have hmem : (r.hi, -1) ∈ past ++ (bdy, delta) :: rest :=
              (hperm.mem_iff).mpr (mem_eventsOf_hi hrR)
            rcases List.mem_append.mp hmem with h | h
            · exact Or.inl (hpast _ h)
            · exact Or.inr (hevsge _ h)
      · refine ih (past ++ [(bdy, delta)]) bdy (count + delta) htail
          (happ ▸ hperm) ?_ hhead ?_ pe hpe2
        · intro e he
          rcases List.mem_append.mp he with h | h
          · exact MaybeInfiniteInt.le_trans (hpast e h) (MaybeInfiniteInt.le_of_lt hltpb)
          · simp only [List.mem_singleton] at h
            subst h
            exact MaybeInfiniteInt.le_refl _
        · rw [hcnt, sumDeltas_append]
          simp [sumDeltas]

theorem MaybeInfiniteInt.lt_min {v a b : MaybeInfiniteInt}
    (h1 : MaybeInfiniteInt.lt v a = true) (h2 : MaybeInfiniteInt.lt v b = true) :
    MaybeInfiniteInt.lt v (MaybeInfiniteInt.min a b) = true := by
  unfold MaybeInfiniteInt.min
  split <;> assumption

theorem insertSorted_perm {α : Type} (le : α → α → Bool) (x : α) (l : List α) :
    (insertSorted le x l).Perm (x :: l) := by
  induction l with
  | nil => exact List.Perm.refl _
  | cons y ys ih =>
    simp only [insertSorted]
    split
    · exact List.Perm.refl _
    · exact (List.Perm.cons y ih).trans (List.Perm.swap x y ys)

theorem sortBy_perm {α : Type} (le : α → α → Bool) (l : List α) :
    (sortBy le l).Perm l := by
  induction l with
  | nil => exact List.Perm.refl _
  | cons x xs ih =>
    simp only [sortBy]
    exact (insertSorted_perm le x (sortBy le xs)).trans (List.Perm.cons x ih)

theorem insertSorted_pairwise {α : Type} (le : α → α → Bool)
    (htrans : ∀ a b c, le a b = true → le b c = true → le a c = true)
    (htot : ∀ a b, (le a b || le b a) = true) (x : α) (l : List α)
    (h : List.Pairwise (fun a b => le a b = true) l) :
    List.Pairwise (fun a b => le a b = true) (insertSorted le x l) := by
  induction l with
  | nil => exact List.pairwise_singleton _ _
  | cons y ys ih =>
    obtain ⟨hhead, htail⟩ := List.pairwise_cons.mp h
    simp only [insertSorted]
    split
    · next hxy =>
      refine List.pairwise_cons.mpr ⟨?_, h⟩
      intro b hb
      rcases List.mem_cons.mp hb with rfl | hb
      · exact hxy
      · exact htrans _ _ _ hxy (hhead b hb)
    · next hxy =>
      have hyx : le y x = true := by
        rcases Bool.or_eq_true_iff.mp (htot x y) with h1 | h1
        · exact absurd h1 hxy
        · exact h1
      refine List.pairwise_cons.mpr ⟨?_, ih htail⟩
      intro b hb
      rcases List.mem_cons.mp ((insertSorted_perm le x ys).mem_iff.mp hb) with rfl | hb
      · exact hyx
      · exact hhead b hb

theorem sortBy_sorted {α : Type} (le : α → α → Bool)
    (htrans : ∀ a b c, le a b = true → le b c = true → le a c = true)
    (htot : ∀ a b, (le a b || le b a) = true) (l : List α) :
    List.Pairwise (fun a b => le a b = true) (sortBy le l) := by
  induction l with
  | nil => exact List.Pairwise.nil
  | cons x xs ih =>
    exact insertSorted_pairwise le htrans htot x (sortBy le xs) ih

theorem evLE_coord {a b : MaybeInfiniteInt × Int} (h : evLE a b = true) :
    MaybeInfiniteInt.le a.1 b.1 = true := by
  simp only [evLE, Bool.or_eq_true, Bool.and_eq_true, decide_eq_true_eq] at h
  rcases h with h | ⟨h, _⟩
  · exact MaybeInfiniteInt.le_of_lt h
  · exact h ▸ MaybeInfiniteInt.le_refl _

/-- The three structural facts about `IntRange::split` shared by the claims:
the output is a contiguous chain over `self`; an output range is `Seen` exactly
when some column range contains it; and every output range is included in or
disjoint from every column range. -/
theorem split_invariants (self : IntRange) (column : List IntRange)
    (hwf : MaybeInfiniteInt.lt self.lo self.hi = true)
    (hcol : ∀ c ∈ column, MaybeInfiniteInt.lt c.lo c.hi = true) :
    chainFrom self.lo self.hi (self.split column) ∧
    (∀ pe ∈ self.split column,
      (pe.1 = Presence.Seen ↔ ∃ c ∈ column, pe.2.is_subrange c = true)) ∧
    (∀ pe ∈ self.split column, ∀ c ∈ column,
      pe.2.is_subrange c = true ∨
      (∀ v, ¬(pe.2.contains v = true ∧ c.contains v = true))) := by
  classical
  set R := column.filterMap (fun r => self.intersection r) with hRdef
  have hR : ∀ r ∈ R, MaybeInfiniteInt.lt r.lo r.hi = true := by
    intro r hr
    rw [hRdef, List.mem_filterMap] at hr
    obtain ⟨c, hc, hint⟩ := hr
    exact (intersection_bounds hwf (hcol c hc) hint).1
  have hRb : ∀ r ∈ R, MaybeInfiniteInt.le self.lo r.lo = true ∧
      MaybeInfiniteInt.le r.hi self.hi = true := by
    intro r hr
    rw [hRdef, List.mem_filterMap] at hr
    obtain ⟨c, hc, hint⟩ := hr
    obtain ⟨_, h2, h3, _, _⟩ := intersection_bounds hwf (hcol c hc) hint
    exact ⟨h2, h3⟩
  set boundaries := R.flatMap (fun r => [(r.lo, (1 : Int)), (r.hi, -1)]) with hBdef
  have hbound : ∀ ev ∈ boundaries, MaybeInfiniteInt.le self.lo ev.1 = true ∧
      MaybeInfiniteInt.le ev.1 self.hi = true := by
    intro ev hev
    rw [hBdef, List.mem_flatMap] at hev
    obtain ⟨r, hr, hmem⟩ := hev
    obtain ⟨h1, h2⟩ := hRb r hr
    have h3 := hR r hr
    rcases List.mem_cons.mp hmem with rfl | hmem
    · exact ⟨h1, MaybeInfiniteInt.le_trans (MaybeInfiniteInt.le_of_lt h3) h2⟩
    · rcases List.mem_cons.mp hmem with rfl | hmem
      · exact ⟨MaybeInfiniteInt.le_trans h1 (MaybeInfiniteInt.le_of_lt h3), h2⟩
      · simp at hmem
  set sorted := sortBy evLE boundaries with hSdef
  have hsortmem : ∀ ev ∈ sorted, MaybeInfiniteInt.le self.lo ev.1 = true ∧
      MaybeInfiniteInt.le ev.1 self.hi = true := by
    intro ev hev
    exact hbound ev ((sortBy_perm evLE boundaries).mem_iff.mp hev)
  have hsorted : List.Pairwise (fun a b => MaybeInfiniteInt.le a.1 b.1 = true) sorted := by
    refine List.Pairwise.imp (fun h => evLE_coord h) ?_
    exact sortBy_sorted evLE (fun a b c => evLE_trans a b c) evLE_total boundaries
  set evs := sorted ++ [(self.hi, (0 : Int))] with hEdef
  have hpw : List.Pairwise (fun a b => MaybeInfiniteInt.le a.1 b.1 = true) evs := by
    rw [hEdef, List.pairwise_append]
    refine ⟨hsorted, List.pairwise_singleton _ _, ?_⟩
    intro a ha b hb
    simp only [List.mem_singleton] at hb
    subst hb
    exact (hsortmem a ha).2
  have hlb : ∀ e ∈ evs, MaybeInfiniteInt.le self.lo e.1 = true := by
    intro e he
    rw [hEdef] at he
    rcases List.mem_append.mp he with h | h
    · exact (hsortmem e h).1
    · simp only [List.mem_singleton] at h
      subst h
      exact MaybeInfiniteInt.le_of_lt hwf
  have hperm : (([] : List (MaybeInfiniteInt × Int)) ++ evs).Perm (eventsOf R self) := by
    rw [List.nil_append, hEdef, eventsOf]
    exact (sortBy_perm evLE boundaries).append_right _
  have hsplit : self.split column = splitEmit self.lo 0 evs := rfl
  have hlast : lastCoord self.lo evs = self.hi := by
    rw [hEdef, lastCoord, List.getLast?_concat]
  have hchain : chainFrom self.lo self.hi (self.split column) := by
    rw [hsplit, ← hlast]
    exact splitEmit_chain evs self.lo 0 hlb hpw
  have hpres := splitEmit_presence R self hR evs [] self.lo 0 hpw hperm
    (by intro e he; simp at he) hlb rfl
  refine ⟨hchain, ?_, ?_⟩
  · intro pe hpe
    obtain ⟨hb1, hb2, hb3⟩ := chainFrom_bounds hchain pe hpe
    obtain ⟨hiff, _⟩ := hpres pe (hsplit ▸ hpe)
    constructor
    · intro hseen
      obtain ⟨r, hrR, hsub⟩ := hiff.mp hseen
      rw [hRdef, List.mem_filterMap] at hrR
      obtain ⟨c, hc, hint⟩ := hrR
      obtain ⟨_, _, _, h4, h5⟩ := intersection_bounds hwf (hcol c hc) hint
      simp only [IntRange.is_subrange, Bool.and_eq_true] at hsub ⊢
      exact ⟨c, hc, MaybeInfiniteInt.le_trans h4 hsub.1,
        MaybeInfiniteInt.le_trans hsub.2 h5⟩
    · intro ⟨c, hc, hsub⟩
      simp only [IntRange.is_subrange, Bool.and_eq_true] at hsub
      obtain ⟨hs1, hs2⟩ := hsub
      have hc1 : MaybeInfiniteInt.lt self.lo c.hi = true :=
        MaybeInfiniteInt.lt_of_le_of_lt hb1
          (MaybeInfiniteInt.lt_of_lt_of_le hb2 hs2)
      have hc2 : MaybeInfiniteInt.lt c.lo self.hi = true :=
        MaybeInfiniteInt.lt_of_le_of_lt hs1
          (MaybeInfiniteInt.lt_of_lt_of_le hb2 hb3)
      have hint : self.intersection c =
          some ⟨MaybeInfiniteInt.max self.lo c.lo,
            MaybeInfiniteInt.min self.hi c.hi⟩ := by
        simp [IntRange.intersection, hc1, hc2]
      have hxR : (⟨MaybeInfiniteInt.max self.lo c.lo,
          MaybeInfiniteInt.min self.hi c.hi⟩ : IntRange) ∈ R := by
        rw [hRdef, List.mem_filterMap]
        exact ⟨c, hc, hint⟩
      refine hiff.mpr ⟨_, hxR, ?_⟩
      simp only [IntRange.is_subrange, Bool.and_eq_true]
      exact ⟨MaybeInfiniteInt.max_le hb1 hs1, MaybeInfiniteInt.le_min hb3 hs2⟩
  · intro pe hpe c hc
    obtain ⟨hb1, hb2, hb3⟩ := chainFrom_bounds hchain pe hpe
    obtain ⟨_, hdich⟩ := hpres pe (hsplit ▸ hpe)
    by_cases hov : ∃ v, pe.2.contains v = true ∧ c.contains v = true
    · obtain ⟨v, hv1, hv2⟩ := hov
      simp only [IntRange.contains, Bool.and_eq_true] at hv1 hv2
      obtain ⟨hv1a, hv1b⟩ := hv1
      obtain ⟨hv2a, hv2b⟩ := hv2
      have hc1 : MaybeInfiniteInt.lt self.lo c.hi = true :=
        MaybeInfiniteInt.lt_of_le_of_lt (MaybeInfiniteInt.le_trans hb1 hv1a) hv2b
      have hc2 : MaybeInfiniteInt.lt c.lo self.hi = true :=
        MaybeInfiniteInt.lt_of_le_of_lt hv2a
          (MaybeInfiniteInt.lt_of_lt_of_le hv1b hb3)
      have hint : self.intersection c =
          some ⟨MaybeInfiniteInt.max self.lo c.lo,
            MaybeInfiniteInt.min self.hi c.hi⟩ := by
        simp [IntRange.intersection, hc1, hc2]
      have hxR : (⟨MaybeInfiniteInt.max self.lo c.lo,
          MaybeInfiniteInt.min self.hi c.hi⟩ : IntRange) ∈ R := by
        rw [hRdef, List.mem_filterMap]
        exact ⟨c, hc, hint⟩
      obtain ⟨hd1, hd2⟩ := hdich _ hxR
      have hxlov : MaybeInfiniteInt.le (MaybeInfiniteInt.max self.lo c.lo) v = true :=
        MaybeInfiniteInt.max_le (MaybeInfiniteInt.le_trans hb1 hv1a) hv2a
      have hxlo : MaybeInfiniteInt.le (MaybeInfiniteInt.max self.lo c.lo) pe.2.lo
          = true := by
        rcases hd1 with h | h
        · exact h
        · exfalso
          have := MaybeInfiniteInt.lt_of_le_of_lt
            (MaybeInfiniteInt.le_trans h hxlov) hv1b
          simp [MaybeInfiniteInt.lt_irrefl] at this
      have hvhix : MaybeInfiniteInt.lt v (MaybeInfiniteInt.min self.hi c.hi) = true :=
        MaybeInfiniteInt.lt_min (MaybeInfiniteInt.lt_of_lt_of_le hv1b hb3) hv2b
      have hxhi : MaybeInfiniteInt.le pe.2.hi (MaybeInfiniteInt.min self.hi c.hi)
          = true := by
        rcases hd2 with h | h
        · exfalso
          have := MaybeInfiniteInt.lt_of_le_of_lt
            (MaybeInfiniteInt.le_trans h hv1a) hvhix
          simp [MaybeInfiniteInt.lt_irrefl] at this
        · exact h
      left
      simp only [IntRange.is_subrange, Bool.and_eq_true]
      constructor
      · exact MaybeInfiniteInt.le_trans (MaybeInfiniteInt.le_max_right self.lo c.lo) hxlo
      · exact MaybeInfiniteInt.le_trans hxhi (MaybeInfiniteInt.min_le_right self.hi c.hi)
    · right
      intro v hcon
      exact hov ⟨v, hcon⟩

/-- C2: for a well-formed `self` and a column of (well-formed) `IntRange`s,
`IntRange::split` emits ranges whose union is exactly `self`, which are
pairwise disjoint and ordered by `lo`, and whose presence is `Seen` exactly
when the range lies inside at least one column range. -/
theorem int_range_split_spec (self : IntRange) (column : List IntRange)
    (hwf : MaybeInfiniteInt.lt self.lo self.hi = true)
    (hlo : self.lo ≠ .PosInfinity) (hhi : self.hi ≠ .NegInfinity)
    (hcol : ∀ c ∈ column, MaybeInfiniteInt.lt c.lo c.hi = true) :
    (∀ v, (∃ pe ∈ self.split column, pe.2.contains v = true) ↔
      self.contains v = true) ∧
    List.Pairwise (fun a b => ∀ v, ¬(a.2.contains v = true ∧ b.2.contains v = true))
      (self.split column) ∧
    List.Pairwise (fun a b => MaybeInfiniteInt.lt a.2.lo b.2.lo = true)
      (self.split column) ∧
    (∀ pe ∈ self.split column,
      (pe.1 = Presence.Seen ↔ ∃ c ∈ column, pe.2.is_subrange c = true)) := by
  obtain ⟨hchain, hpres, _⟩ := split_invariants self column hwf hcol
  refine ⟨?_, ?_, ?_, hpres⟩
  · intro v
    rw [chainFrom_union hchain v]
    simp [IntRange.contains]
  · refine List.Pairwise.imp ?_ (chainFrom_pairwise_hi_lo hchain)
    intro a b hab v ⟨hva, hvb⟩
    simp only [IntRange.contains, Bool.and_eq_true] at hva hvb
    have h1 := MaybeInfiniteInt.lt_of_lt_of_le hva.2 hab
    have h2 := MaybeInfiniteInt.lt_of_lt_of_le h1 hvb.1
    simp [MaybeInfiniteInt.lt_irrefl] at h2
  · refine List.Pairwise.imp_of_mem ?_ (chainFrom_pairwise_hi_lo hchain)
    intro a b ha hb hab
    have hba := (chainFrom_bounds hchain a ha).2.1
    exact MaybeInfiniteInt.lt_of_lt_of_le hba hab

/-- Witness for C2 at a concrete input: `[0, 10)` split by the column `{[2, 5)}`. -/
theorem int_range_split_spec_witness :
    (MaybeInfiniteInt.lt (IntRange.mk (.Finite 0) (.Finite 10)).lo
        (IntRange.mk (.Finite 0) (.Finite 10)).hi = true) ∧
    ((IntRange.mk (.Finite 0) (.Finite 10)).lo ≠ .PosInfinity) ∧
    ((IntRange.mk (.Finite 0) (.Finite 10)).hi ≠ .NegInfinity) ∧
    (∀ c ∈ [IntRange.mk (.Finite 2) (.Finite 5)],
      MaybeInfiniteInt.lt c.lo c.hi = true) ∧
    (∀ pe ∈ (IntRange.mk (.Finite 0) (.Finite 10)).split
        [IntRange.mk (.Finite 2) (.Finite 5)],
      (pe.1 = Presence.Seen ↔
        ∃ c ∈ [IntRange.mk (.Finite 2) (.Finite 5)], pe.2.is_subrange c = true)) := by
  refine ⟨by decide, by decide, by decide, by decide, ?_⟩
  exact (int_range_split_spec (IntRange.mk (.Finite 0) (.Finite 10))
    [IntRange.mk (.Finite 2) (.Finite 5)] (by decide) (by decide) (by decide)
    (by decide)).2.2.2

/-- C3 counterexample: splitting the `i32` wildcard (biased range
`[0, 2^32)` built by `for_ty`) by the column `{0..=100, 50..=150, 0..=200}`
(biased by XOR with `2^31` as `from_range`/`new_finite` do) does NOT mark the
first chunk `[MIN, 0)` as `Seen`: the claimed output list is wrong. -/
theorem int_range_split_i32_scenario_counterexample :
    IntRange.from_range (MaybeInfiniteInt.new_finite (Ty.sInt 32 false) 0)
        (MaybeInfiniteInt.new_finite (Ty.sInt 32 false) 100) RangeEnd.Included =
      some ⟨.Finite 2147483648, .Finite 2147483749⟩ ∧
    IntRange.from_range (MaybeInfiniteInt.new_finite (Ty.sInt 32 false) 50)
        (MaybeInfiniteInt.new_finite (Ty.sInt 32 false) 150) RangeEnd.Included =
      some ⟨.Finite 2147483698, .Finite 2147483799⟩ ∧
    IntRange.from_range (MaybeInfiniteInt.new_finite (Ty.sInt 32 false) 0)
        (MaybeInfiniteInt.new_finite (Ty.sInt 32 false) 200) RangeEnd.Included =
      some ⟨.Finite 2147483648, .Finite 2147483849⟩ ∧
    ConstructorSet.for_ty ⟨false, false⟩ (Ty.sInt 32 false) =
      some (.Integers ⟨.Finite 0, .Finite 4294967296⟩ none) ∧
    ¬ (IntRange.split ⟨.Finite 0, .Finite 4294967296⟩
        [⟨.Finite 2147483648, .Finite 2147483749⟩,
         ⟨.Finite 2147483698, .Finite 2147483799⟩,
         ⟨.Finite 2147483648, .Finite 2147483849⟩] =
       [(Presence.Seen, ⟨.Finite 0, .Finite 2147483648⟩),
        (Presence.Seen, ⟨.Finite 2147483648, .Finite 2147483698⟩),
        (Presence.Seen, ⟨.Finite 2147483698, .Finite 2147483749⟩),
        (Presence.Seen, ⟨.Finite 2147483749, .Finite 2147483799⟩),
        (Presence.Seen, ⟨.Finite 2147483799, .Finite 2147483849⟩),
        (Presence.Unseen, ⟨.Finite 2147483849, .Finite 4294967296⟩)]) := by
  refine ⟨by decide, by decide, by decide, by decide, by decide⟩

/-- C3 as amended: the same split yields the same six chunks in the same
order, but the fictitious-free first chunk `[MIN, 0)` (biased `[0, 2^31)`) is
`Unseen` — it is covered by none of the column ranges; the other five presences
are as the claim stated them. -/
theorem int_range_split_i32_scenario :
    IntRange.split ⟨.Finite 0, .Finite 4294967296⟩
        [⟨.Finite 2147483648, .Finite 2147483749⟩,
         ⟨.Finite 2147483698, .Finite 2147483799⟩,
         ⟨.Finite 2147483648, .Finite 2147483849⟩] =
      [(Presence.Unseen, ⟨.Finite 0, .Finite 2147483648⟩),
       (Presence.Seen, ⟨.Finite 2147483648, .Finite 2147483698⟩),
       (Presence.Seen, ⟨.Finite 2147483698, .Finite 2147483749⟩),
       (Presence.Seen, ⟨.Finite 2147483749, .Finite 2147483799⟩),
       (Presence.Seen, ⟨.Finite 2147483799, .Finite 2147483849⟩),
       (Presence.Unseen, ⟨.Finite 2147483849, .Finite 4294967296⟩)] := by
  decide

/-- C7 counterexample: with an empty column, splitting the `VarLen(0,0)`
wildcard does NOT return `[(Unseen, VarLen(0,0))]` for `array_len = None`
(the growth step always raises `max_prefix_len` to `max_fixed_len + 1 = 1`,
so the output is `[(Unseen, FixedLen(0)), (Unseen, VarLen(1,0))]`), and does
NOT return `[(Unseen, FixedLen(n))]` for `array_len = Some(5)` (the grown
`VarLen(1,0)` has arity `1 < 5` and is not clamped). -/
theorem slice_split_empty_column_counterexample :
    ¬ ((Slice.new none (.VarLen 0 0)).split [] =
        [(Presence.Unseen, Slice.new none (.VarLen 0 0))]) ∧
    ¬ ((Slice.new (some 5) (.VarLen 0 0)).split [] =
        [(Presence.Unseen, ⟨some 5, .FixedLen 5⟩)]) := by
  refine ⟨by decide, by decide⟩

/-- C7 as amended: with an empty column, splitting the `VarLen(0,0)` wildcard
returns `[(Unseen, FixedLen(0)), (Unseen, VarLen(1,0))]` when
`array_len = None`; when `array_len = Some(n)` it returns exactly
`[(Unseen, FixedLen(n))]` for `n ≤ 1` and `[(Unseen, VarLen(1,0))]` (with the
array length kept) for `2 ≤ n < usize::MAX`. -/
theorem slice_split_empty_column_spec :
    ((Slice.new none (.VarLen 0 0)).split [] =
      [(Presence.Unseen, ⟨none, .FixedLen 0⟩),
       (Presence.Unseen, ⟨none, .VarLen 1 0⟩)]) ∧
    ((Slice.new (some 0) (.VarLen 0 0)).split [] =
      [(Presence.Unseen, ⟨some 0, .FixedLen 0⟩)]) ∧
    ((Slice.new (some 1) (.VarLen 0 0)).split [] =
      [(Presence.Unseen, ⟨some 1, .FixedLen 1⟩)]) ∧
    (∀ n : Nat, 2 ≤ n → n < usizeMAX →
      (Slice.new (some n) (.VarLen 0 0)).split [] =
        [(Presence.Unseen, ⟨some n, .VarLen 1 0⟩)]) := by
  refine ⟨by decide, by decide, by decide, ?_⟩
  intro n h2 hmax
  have hnew : Slice.new (some n) (.VarLen 0 0) = ⟨some n, .VarLen 0 0⟩ := by
    simp only [Slice.new]
    rw [if_neg (by omega)]
  rw [hnew]
  unfold Slice.split
  simp only [List.foldl_nil]
  norm_num
  rw [if_neg (by simp only [SliceKind.arity]; omega)]
  constructor
  · intro hcon
    exfalso
    norm_num [SliceKind.arity, usizeMAX] at hcon
  · simp only [Slice.new]
    rw [if_neg (by omega)]

/-- Witness for C7 (amended) at `n = 5`. -/
theorem slice_split_empty_column_spec_witness :
    (2 ≤ 5 ∧ 5 < usizeMAX) ∧
    (Slice.new (some 5) (.VarLen 0 0)).split [] =
      [(Presence.Unseen, ⟨some 5, .VarLen 1 0⟩)] := by
  refine ⟨⟨by norm_num, by norm_num [usizeMAX]⟩, ?_⟩
  exact slice_split_empty_column_spec.2.2.2 5 (by norm_num) (by norm_num [usizeMAX])

theorem sliceFoldVar_bounds (arity : Nat) :
    ∀ (ss : List Slice) (st0 : SliceSplitState),
      st0.max_prefix_len ≤ (ss.foldl (sliceSplitStepVar arity) st0).max_prefix_len ∧
      st0.max_suffix_len ≤ (ss.foldl (sliceSplitStepVar arity) st0).max_suffix_len ∧
      st0.max_fixed_len ≤ (ss.foldl (sliceSplitStepVar arity) st0).max_fixed_len ∧
      (∀ cs ∈ ss, ∀ lenc, cs.kind = .FixedLen lenc →
        lenc ≤ (ss.foldl (sliceSplitStepVar arity) st0).max_fixed_len) ∧
      (∀ cs ∈ ss, ∀ pc sc, cs.kind = .VarLen pc sc →
        pc ≤ (ss.foldl (sliceSplitStepVar arity) st0).max_prefix_len ∧
        sc ≤ (ss.foldl (sliceSplitStepVar arity) st0).max_suffix_len) := by
  intro ss
  induction ss with
  | nil =>
    intro st0
    simp
  | cons cs ss' ih =>
    intro st0
    simp only [List.foldl_cons]
    obtain ⟨i1, i2, i3, i4, i5⟩ := ih (sliceSplitStepVar arity st0 cs)
    have hstep : st0.max_prefix_len ≤ (sliceSplitStepVar arity st0 cs).max_prefix_len ∧
        st0.max_suffix_len ≤ (sliceSplitStepVar arity st0 cs).max_suffix_len ∧
        st0.max_fixed_len ≤ (sliceSplitStepVar arity st0 cs).max_fixed_len := by
      cases hk : cs.kind <;> simp [sliceSplitStepVar, hk] <;> try omega
    refine ⟨le_trans hstep.1 i1, le_trans hstep.2.1 i2, le_trans hstep.2.2 i3, ?_, ?_⟩
    · intro c hc lenc hlen
      rcases List.mem_cons.mp hc with rfl | hc
      · refine le_trans ?_ i3
        simp [sliceSplitStepVar, hlen]
      · exact i4 c hc lenc hlen
    · intro c hc pc sc hlen
      rcases List.mem_cons.mp hc with rfl | hc
      · constructor
        · refine le_trans ?_ i1
          simp [sliceSplitStepVar, hlen]
        · refine le_trans ?_ i2
          simp [sliceSplitStepVar, hlen]
      · exact i5 c hc pc sc hlen

theorem covers_length_arity_le {kind : SliceKind} {k : Nat}
    (h : kind.covers_length k = true) : kind.arity ≤ k := by
  cases kind <;> simp_all [SliceKind.covers_length, SliceKind.arity]

theorem slice_split_varlen_eq (al : Option Nat) (p0 s0 : Nat) (ss : List Slice) :
    (Slice.mk al (.VarLen p0 s0)).split ss =
      (let st := ss.foldl (sliceSplitStepVar (p0 + s0)) ⟨p0, s0, 0, usizeMAX, []⟩
       let st2 := if st.max_fixed_len + 1 ≥ st.max_prefix_len + st.max_suffix_len then
           { st with max_prefix_len := st.max_fixed_len + 1 - st.max_suffix_len }
         else st
       let max_slice := SliceKind.VarLen st2.max_prefix_len st2.max_suffix_len
       let max_slice2 := match al with
         | some len => if max_slice.arity ≥ len then SliceKind.FixedLen len else max_slice
         | none => max_slice
       let smaller_lengths := match al with
         | some _ => ([] : List Nat)
         | none => List.range' (p0 + s0) (max_slice2.arity - (p0 + s0))
       (smaller_lengths.map SliceKind.FixedLen ++ [max_slice2]).map (fun kind =>
         (if st2.min_var_len ≤ kind.arity || st2.seen_fixed_lens.contains kind.arity
           then Presence.Seen else Presence.Unseen,
          Slice.new al kind))) := rfl

theorem slice_new_fixed (al : Option Nat) (k : Nat) :
    Slice.new al (.FixedLen k) = ⟨al, .FixedLen k⟩ := by
  cases al <;> rfl

theorem slice_new_none (kind : SliceKind) : Slice.new none kind = ⟨none, kind⟩ := by
  cases kind <;> rfl

theorem slice_new_var_keep {n a b : Nat} (h : a + b < n) :
    Slice.new (some n) (.VarLen a b) = ⟨some n, .VarLen a b⟩ := by
  simp only [Slice.new]
  rw [if_neg (by omega)]

theorem slice_split_varlen_struct (al : Option Nat) (p0 s0 : Nat) (ss : List Slice) :
    ∃ mp ms : Nat,
      (∀ cs ∈ ss, ∀ lenc, cs.kind = .FixedLen lenc → lenc < mp + ms) ∧
      (∀ cs ∈ ss, ∀ pc sc, cs.kind = .VarLen pc sc → pc + sc ≤ mp + ms) ∧
      p0 + s0 ≤ mp + ms ∧ 1 ≤ mp + ms ∧
      (∀ pr ∈ (Slice.mk al (.VarLen p0 s0)).split ss,
        (∃ k, pr.2.kind = .FixedLen k) ∨ pr.2.kind = .VarLen mp ms) ∧
      (∀ k, p0 + s0 ≤ k → (al = none ∨ al = some k) →
        ∃ pr ∈ (Slice.mk al (.VarLen p0 s0)).split ss,
          pr.2.kind.covers_length k = true) := by
  obtain ⟨b1, b2, b3, b4, b5⟩ :=
    sliceFoldVar_bounds (p0 + s0) ss ⟨p0, s0, 0, usizeMAX, []⟩
  dsimp only at b1 b2 b3
  rw [slice_split_varlen_eq]
  simp only []
  set stF := ss.foldl (sliceSplitStepVar (p0 + s0)) ⟨p0, s0, 0, usizeMAX, []⟩ with hstF
  set st2 := if stF.max_fixed_len + 1 ≥ stF.max_prefix_len + stF.max_suffix_len then
      { stF with max_prefix_len := stF.max_fixed_len + 1 - stF.max_suffix_len }
    else stF with hst2
  have hmono : stF.max_prefix_len ≤ st2.max_prefix_len ∧
      st2.max_suffix_len = stF.max_suffix_len ∧
      st2.max_fixed_len = stF.max_fixed_len ∧
      stF.max_fixed_len + 1 ≤ st2.max_prefix_len + st2.max_suffix_len := by
    rw [hst2]
    split
    · refine ⟨?_, ?_, ?_, ?_⟩ <;> dsimp only <;> omega
    · next h => exact ⟨le_refl _, rfl, rfl, by omega⟩
  obtain ⟨m1, m2, m3, m4⟩ := hmono
  refine ⟨st2.max_prefix_len, st2.max_suffix_len, ?_, ?_, ?_, ?_, ?_, ?_⟩
  · intro cs hcs lenc hlen
    have := b4 cs hcs lenc hlen
    omega
  · intro cs hcs pc sc hlen
    obtain ⟨h1, h2⟩ := b5 cs hcs pc sc hlen
    omega
  · omega
  · omega
  · intro pr hpr
    rw [List.mem_map] at hpr
    obtain ⟨kind, hkind, rfl⟩ := hpr
    rcases List.mem_append.mp hkind with hk | hk
    · rw [List.mem_map] at hk
      obtain ⟨k, _, rfl⟩ := hk
      rw [slice_new_fixed]
      exact Or.inl ⟨k, rfl⟩
    · simp only [List.mem_singleton] at hk
      subst hk
      cases al with
      | none =>
        rw [slice_new_none]
        exact Or.inr rfl
      | some len =>
        simp only [SliceKind.arity, ge_iff_le]
        by_cases hcap : len ≤ st2.max_prefix_len + st2.max_suffix_len
        · rw [if_pos hcap, slice_new_fixed]
          exact Or.inl ⟨len, rfl⟩
        · rw [if_neg hcap, slice_new_var_keep (by omega)]
          exact Or.inr rfl
  · intro k hk hal
    rcases hal with rfl | rfl
    · simp only [SliceKind.arity]
      by_cases hkL : k < st2.max_prefix_len + st2.max_suffix_len
      · refine ⟨(if st2.min_var_len ≤ (SliceKind.FixedLen k).arity ||
            st2.seen_fixed_lens.contains (SliceKind.FixedLen k).arity
            then Presence.Seen else Presence.Unseen, Slice.new none (.FixedLen k)),
          ?_, ?_⟩
        · refine List.mem_map.mpr ⟨.FixedLen k, ?_, rfl⟩
          refine List.mem_append_left _ (List.mem_map.mpr ⟨k, ?_, rfl⟩)
          rw [List.mem_range'_1]
          constructor
          · exact hk
          · omega
        · rw [slice_new_none]
          simp [SliceKind.covers_length]
      · refine ⟨(if st2.min_var_len ≤
            (SliceKind.VarLen st2.max_prefix_len st2.max_suffix_len).arity ||
            st2.seen_fixed_lens.contains
              (SliceKind.VarLen st2.max_prefix_len st2.max_suffix_len).arity
            then Presence.Seen else Presence.Unseen,
          Slice.new none (.VarLen st2.max_prefix_len st2.max_suffix_len)), ?_, ?_⟩
        · exact List.mem_map.mpr ⟨.VarLen st2.max_prefix_len st2.max_suffix_len,
            List.mem_append_right _ (List.mem_singleton.mpr rfl), rfl⟩
        · rw [slice_new_none]
          simp only [SliceKind.covers_length, decide_eq_true_eq]
          omega
    · simp only [SliceKind.arity, ge_iff_le, List.map_nil, List.nil_append]
      by_cases hcap : k ≤ st2.max_prefix_len + st2.max_suffix_len
      · rw [if_pos hcap]
        refine ⟨(if st2.min_var_len ≤ (SliceKind.FixedLen k).arity ||
            st2.seen_fixed_lens.contains (SliceKind.FixedLen k).arity
            then Presence.Seen else Presence.Unseen, Slice.new (some k) (.FixedLen k)),
          List.mem_map.mpr ⟨.FixedLen k, List.mem_singleton.mpr rfl, rfl⟩, ?_⟩
        rw [slice_new_fixed]
        simp [SliceKind.covers_length]
      · rw [if_neg hcap]
        refine ⟨(if st2.min_var_len ≤
            (SliceKind.VarLen st2.max_prefix_len st2.max_suffix_len).arity ||
            st2.seen_fixed_lens.contains
              (SliceKind.VarLen st2.max_prefix_len st2.max_suffix_len).arity
            then Presence.Seen else Presence.Unseen,
          Slice.new (some k) (.VarLen st2.max_prefix_len st2.max_suffix_len)),
          List.mem_map.mpr ⟨.VarLen st2.max_prefix_len st2.max_suffix_len,
            List.mem_singleton.mpr rfl, rfl⟩, ?_⟩
        rw [slice_new_var_keep (by omega)]
        simp only [SliceKind.covers_length, decide_eq_true_eq]
        omega

theorem slice_split_fixed_eq (al : Option Nat) (n : Nat) (ss : List Slice) :
    (Slice.mk al (.FixedLen n)).split ss =
      (let st := ss.foldl (sliceSplitStepFixed n) ⟨0, 0, 0, usizeMAX, []⟩
       [(if st.min_var_len ≤ n || st.seen_fixed_lens.contains n
          then Presence.Seen else Presence.Unseen, Slice.new al (.FixedLen n))]) := rfl

theorem slice_split_fixed_out (al : Option Nat) (n : Nat) (ss : List Slice) :
    ∃ p : Presence, (Slice.mk al (.FixedLen n)).split ss =
      [(p, Slice.new al (.FixedLen n))] := by
  rw [slice_split_fixed_eq]
  exact ⟨_, rfl⟩

theorem mapMOpt_mem {α β : Type} {f : α → Option β} :
    ∀ {l : List α} {res : List β}, mapMOpt f l = some res →
    ∀ y ∈ res, ∃ x ∈ l, f x = some y := by
  intro l
  induction l with
  | nil =>
    intro res h y hy
    simp only [mapMOpt, Option.some.injEq] at h
    subst h
    simp at hy
  | cons x xs ih =>
    intro res h y hy
    simp only [mapMOpt, Option.bind_eq_bind, Option.bind_eq_some] at h
    obtain ⟨y0, hy0, ys, hys, h⟩ := h
    simp only [Option.some.injEq] at h
    subst h
    rcases List.mem_cons.mp hy with rfl | hy
    · exact ⟨x, List.mem_cons_self _ _, hy0⟩
    · obtain ⟨x', hx', hfx'⟩ := ih hys y hy
      exact ⟨x', List.mem_cons_of_mem _ hx', hfx'⟩

theorem mapMOpt_mem_of {α β : Type} {f : α → Option β} :
    ∀ {l : List α} {res : List β}, mapMOpt f l = some res →
    ∀ x ∈ l, ∀ y, f x = some y → y ∈ res := by
  intro l
  induction l with
  | nil =>
    intro res _ x hx
    simp at hx
  | cons x0 xs ih =>
    intro res h x hx y hfy
    simp only [mapMOpt, Option.bind_eq_bind, Option.bind_eq_some] at h
    obtain ⟨y0, hy0, ys, hys, h⟩ := h
    simp only [Option.some.injEq] at h
    subst h
    rcases List.mem_cons.mp hx with rfl | hx
    · rw [hfy] at hy0
      simp only [Option.some.injEq] at hy0
      subst hy0
      exact List.mem_cons_self _ _
    · exact List.mem_cons_of_mem _ (ih hys x hx y hfy)

theorem mapMOpt_filterMap {α β : Type} {f : α → Option β} :
    ∀ {l : List α} {res : List β}, mapMOpt f l = some res → l.filterMap f = res := by
  intro l
  induction l with
  | nil =>
    intro res h
    simp only [mapMOpt, Option.some.injEq] at h
    subst h
    rfl
  | cons x xs ih =>
    intro res h
    simp only [mapMOpt, Option.bind_eq_bind, Option.bind_eq_some] at h
    obtain ⟨y0, hy0, ys, hys, h⟩ := h
    simp only [Option.some.injEq] at h
    subst h
    rw [List.filterMap_cons, hy0, ih hys]

/-- Inclusion-or-disjointness is automatic for an element whose extension is at
most a single atom. -/
theorem singleton_incl_or_disj {hid sIdx : List Nat} {e c : Constructor} {a0 : Atom}
    (he : ∀ a, coversAtom hid sIdx e a = true → a = a0) :
    (∀ a, coversAtom hid sIdx e a = true → coversAtom hid sIdx c a = true) ∨
    (∀ a, ¬(coversAtom hid sIdx e a = true ∧ coversAtom hid sIdx c a = true)) := by
  by_cases hc : coversAtom hid sIdx c a0 = true
  · left
    intro a ha
    rw [he a ha]
    exact hc
  · right
    intro a ⟨h1, h2⟩
    rw [he a h1] at h2
    exact hc h2

theorem from_range_wf {lo hi : MaybeInfiniteInt} {rend : RangeEnd} {r : IntRange}
    (h : IntRange.from_range lo hi rend = some r) :
    MaybeInfiniteInt.lt r.lo r.hi = true := by
  cases rend <;> simp only [IntRange.from_range] at h
  case Included =>
    simp only [Option.bind_eq_bind, Option.bind_eq_some] at h
    obtain ⟨y, _, h⟩ := h
    split at h
    · next hc =>
      simp only [Option.some.injEq] at h
      subst h
      exact hc
    · exact absurd h (by simp)
  case Excluded =>
    simp only [Option.bind_eq_bind, Option.some_bind] at h
    split at h
    · next hc =>
      simp only [Option.some.injEq] at h
      subst h
      exact hc
    · exact absurd h (by simp)

theorem for_ty_wf {fl : Features} {ty : Ty} {cset : ConstructorSet}
    (h : ConstructorSet.for_ty fl ty = some cset) : cset.wf := by
  cases ty <;> simp only [ConstructorSet.for_ty] at h
  case bool => cases h; trivial
  case char =>
    simp only [Option.bind_eq_bind, Option.bind_eq_some] at h
    obtain ⟨r1, h1, r2, h2, h⟩ := h
    simp only [Option.some.injEq] at h
    subst h
    refine ⟨from_range_wf h1, ?_⟩
    intro r hr
    simp only [Option.toList_some, List.mem_singleton] at hr
    subst hr
    exact from_range_wf h2
  case sInt bits ptr =>
    split at h
    · simp only [Option.some.injEq] at h
      subst h
      exact ⟨rfl, by simp⟩
    · simp only [Option.bind_eq_bind, Option.bind_eq_some] at h
      obtain ⟨r1, h1, h⟩ := h
      simp only [Option.some.injEq] at h
      subst h
      exact ⟨from_range_wf h1, by simp⟩
  case uInt bits ptr =>
    split at h
    · simp only [Option.some.injEq] at h
      subst h
      exact ⟨rfl, by simp⟩
    · simp only [Option.bind_eq_bind, Option.bind_eq_some] at h
      obtain ⟨r1, h1, h⟩ := h
      simp only [Option.some.injEq] at h
      subst h
      exact ⟨from_range_wf h1, by simp⟩
  case str => cases h; trivial
  case float isF64 => cases h; trivial
  case tuple fields => split at h <;> (cases h; trivial)
  case ref t => split at h <;> (cases h; trivial)
  case array elem len =>
    cases len <;> simp only at h <;> split at h <;> (cases h; trivial)
  case slice elem => split at h <;> (cases h; trivial)
  case adt iB iE uq ne args variants =>
    split at h
    · split at h
      · cases h; trivial
      · cases h; trivial
    · split at h
      · cases h; trivial
      · cases h; trivial
  case never => cases h; trivial

theorem coversAtom_opaque_singleton (hid sIdx : List Nat) (i : Nat) :
    ∀ a, coversAtom hid sIdx (.Opaque i) a = true → a = .opaqueC i := by
  intro a
  cases a <;> simp [coversAtom]
  next j => intro h; simp [h]

theorem coversAtom_single_singleton (hid sIdx : List Nat) :
    ∀ a, coversAtom hid sIdx .Single a = true → a = .single := by
  intro a
  cases a <;> simp [coversAtom]

theorem coversAtom_bool_singleton (hid sIdx : List Nat) (b : Bool) :
    ∀ a, coversAtom hid sIdx (.Bool b) a = true → a = .bool b := by
  intro a
  cases a <;> simp [coversAtom]
  next b2 => intro h; simp [h]

theorem coversAtom_variant_singleton (hid sIdx : List Nat) (i : Nat) :
    ∀ a, coversAtom hid sIdx (.Variant i) a = true → a = .variant i := by
  intro a
  cases a <;> simp [coversAtom]
  next j => intro h; simp [h]

theorem coversAtom_str_singleton (hid sIdx : List Nat) (v : Nat) :
    ∀ a, coversAtom hid sIdx (.Str v) a = true → a = .str v := by
  intro a
  cases a <;> simp [coversAtom]
  next w => intro h; simp [h]

theorem coversAtom_nonexh_singleton (hid sIdx : List Nat) :
    ∀ a, coversAtom hid sIdx .NonExhaustive a = true → a = .unknown := by
  intro a
  cases a <;> simp [coversAtom]

theorem coversAtom_fixedslice_singleton (hid sIdx : List Nat) (al : Option Nat) (k : Nat) :
    ∀ a, coversAtom hid sIdx (.Slice ⟨al, .FixedLen k⟩) a = true → a = .len k := by
  intro a
  cases a <;> simp [coversAtom, SliceKind.covers_length]
  next n => intro h; simp [h]

theorem singleton_iod {hid sIdx : List Nat} {e c : Constructor} {a0 : Atom}
    (he : ∀ a, coversAtom hid sIdx e a = true → a = a0) :
    InclOrDisj hid sIdx e c :=
  singleton_incl_or_disj he

theorem isOpaque_elim {e : Constructor} (h : e.isOpaque = true) :
    ∃ i, e = .Opaque i := by
  cases e <;> simp_all [Constructor.isOpaque]

theorem opaque_iod {hid sIdx : List Nat} {e c : Constructor}
    (h : e.isOpaque = true) : InclOrDisj hid sIdx e c := by
  obtain ⟨i, rfl⟩ := isOpaque_elim h
  exact singleton_iod (coversAtom_opaque_singleton hid sIdx i)

theorem is_subrange_contains {r1 r2 : IntRange} {v : MaybeInfiniteInt}
    (hs : r1.is_subrange r2 = true) (hc : r1.contains v = true) :
    r2.contains v = true := by
  simp only [IntRange.is_subrange, IntRange.contains, Bool.and_eq_true] at *
  exact ⟨MaybeInfiniteInt.le_trans hs.1 hc.1, MaybeInfiniteInt.lt_of_lt_of_le hc.2 hs.2⟩

theorem filterMap_variant_seen (ctors : List Constructor) :
    (ctors.filter (fun c => !c.isOpaque && !c.is_wildcard)).filterMap
      Constructor.as_variant = ctors.filterMap Constructor.as_variant := by
  induction ctors with
  | nil => rfl
  | cons c cs ih =>
    cases c
    case Variant idx => exact congrArg (fun l => idx :: l) ih
    all_goals exact ih

theorem intrange_opaque_disj {hid sIdx : List Nat} {r : IntRange} {j : Nat} :
    ∀ a, ¬(coversAtom hid sIdx (.IntRange r) a = true ∧
      coversAtom hid sIdx (.Opaque j) a = true) := by
  intro a ⟨h1, h2⟩
  cases a <;> simp [coversAtom] at h1 h2

theorem slice_opaque_disj {hid sIdx : List Nat} {s2 : Slice} {j : Nat} :
    ∀ a, ¬(coversAtom hid sIdx (.Slice s2) a = true ∧
      coversAtom hid sIdx (.Opaque j) a = true) := by
  intro a ⟨h1, h2⟩
  cases a <;> simp [coversAtom] at h1 h2

theorem hidden_opaque_disj {hid sIdx : List Nat} {j : Nat} :
    ∀ a, ¬(coversAtom hid sIdx .Hidden a = true ∧
      coversAtom hid sIdx (.Opaque j) a = true) := by
  intro a ⟨h1, h2⟩
  cases a <;> simp [coversAtom] at h1 h2

theorem slice_out_iod {hid sIdx : List Nat} {mp ms : Nat} {s2 cs : Slice}
    (hkind : (∃ k, s2.kind = .FixedLen k) ∨ s2.kind = .VarLen mp ms)
    (hfx : ∀ lenc, cs.kind = .FixedLen lenc → lenc < mp + ms)
    (hvr : ∀ pc sc, cs.kind = .VarLen pc sc → pc + sc ≤ mp + ms) :
    InclOrDisj hid sIdx (.Slice s2) (.Slice cs) := by
  rcases hkind with ⟨k, hk⟩ | hk
  · rcases s2 with ⟨al2, k2⟩
    cases hk
    exact singleton_iod (coversAtom_fixedslice_singleton hid sIdx al2 k)
  · rcases hck : cs.kind with lenc | ⟨pc, sc⟩
    · refine Or.inr ?_
      intro a ⟨h1, h2⟩
      cases a <;> simp [coversAtom, hk, hck, SliceKind.covers_length] at h1 h2
      next n =>
        have := hfx lenc hck
        omega
    · refine Or.inl ?_
      intro a h1
      cases a <;> simp [coversAtom, hk, hck, SliceKind.covers_length] at h1 ⊢
      next n =>
        have := hvr pc sc hck
        omega

theorem mem_ite_singleton {P : Prop} [Decidable P] {x e : Constructor}
    (h : e ∈ (if P then [x] else ([] : List Constructor))) : e = x := by
  split at h
  · simpa using h
  · simp at h

theorem mem_ite_singleton2 {P : Prop} [Decidable P] {x e : Constructor}
    (h : e ∈ (if P then ([] : List Constructor) else [x])) : e = x := by
  split at h
  · simp at h
  · simpa using h

theorem mem_out_split {α : Type} {g : α → Constructor} {opq : List Constructor}
    {out : List (Presence × α)} {pr : Presence × α} (hpr : pr ∈ out) :
    g pr.2 ∈ (opq ++ (out.filter (fun q => q.1 = Presence.Seen)).map (fun q => g q.2)) ++
      (out.filter (fun q => q.1 = Presence.Unseen)).map (fun q => g q.2) := by
  rcases pr with ⟨p, x⟩
  cases p
  · refine List.mem_append_right _ (List.mem_map.mpr ⟨(Presence.Unseen, x), ?_, rfl⟩)
    exact List.mem_filter.mpr ⟨hpr, by simp⟩
  · refine List.mem_append_left _
      (List.mem_append_right _ (List.mem_map.mpr ⟨(Presence.Seen, x), ?_, rfl⟩))
    exact List.mem_filter.mpr ⟨hpr, by simp⟩

theorem mem_out_split_elim {α : Type} {g : α → Constructor} {opq : List Constructor}
    {out : List (Presence × α)} {e : Constructor}
    (he : e ∈ (opq ++ (out.filter (fun q => q.1 = Presence.Seen)).map (fun q => g q.2)) ++
      (out.filter (fun q => q.1 = Presence.Unseen)).map (fun q => g q.2)) :
    e ∈ opq ∨ ∃ pr ∈ out, e = g pr.2 := by
  rcases List.mem_append.mp he with he | he
  · rcases List.mem_append.mp he with he | he
    · exact Or.inl he
    · obtain ⟨pr, hpr, rfl⟩ := List.mem_map.mp he
      exact Or.inr ⟨pr, (List.mem_filter.mp hpr).1, rfl⟩
  · obtain ⟨pr, hpr, rfl⟩ := List.mem_map.mp he
    exact Or.inr ⟨pr, (List.mem_filter.mp hpr).1, rfl⟩

theorem split_coverage_general (cset : ConstructorSet) (hwf : cset.wf)
    (exh top : Bool) (ctors : List Constructor) (scs : SplitConstructorSet)
    (hok : ∀ c ∈ ctors, ColCtorOk cset c)
    (hnf : ∀ c ∈ ctors, (∀ lo hi rend, c ≠ .F32Range lo hi rend) ∧
      (∀ lo hi rend, c ≠ .F64Range lo hi rend))
    (hsplit : cset.split exh top ctors = some scs) :
    (∀ a, cset.universeMem a →
      ∃ e ∈ scs.present ++ scs.missing,
        coversAtom (hiddenOf cset) (columnVariantIdxs ctors) e a = true) ∧
    (∀ e ∈ scs.present ++ scs.missing, ∀ c ∈ ctors, c.is_wildcard = false →
      InclOrDisj (hiddenOf cset) (columnVariantIdxs ctors) e c) := by
  cases cset with
  | Single =>
    simp only [ConstructorSet.split] at hsplit
    split at hsplit <;> simp only [Option.some.injEq] at hsplit <;> subst hsplit
    · constructor
      · intro a ha
        cases a <;> simp only [ConstructorSet.universeMem] at ha
        exact ⟨.Single, by simp, rfl⟩
      · intro e he c hc hcw
        rcases List.mem_append.mp he with he | he
        · exact opaque_iod (List.mem_filter.mp he).2
        · rw [List.mem_singleton] at he
          subst he
          exact singleton_iod (coversAtom_single_singleton _ _)
    · constructor
      · intro a ha
        cases a <;> simp only [ConstructorSet.universeMem] at ha
        exact ⟨.Single, by simp, rfl⟩
      · intro e he c hc hcw
        rcases List.mem_append.mp he with he | he
        · rcases List.mem_append.mp he with he | he
          · exact opaque_iod (List.mem_filter.mp he).2
          · rw [List.mem_singleton] at he
            subst he
            exact singleton_iod (coversAtom_single_singleton _ _)
        · simp at he
  | Bool =>
    simp only [ConstructorSet.split, Option.bind_eq_bind, Option.bind_eq_some] at hsplit
    obtain ⟨bools, hbools, hsp⟩ := hsplit
    simp only [Option.some.injEq] at hsp
    subst hsp
    constructor
    · intro a ha
      cases a <;> simp only [ConstructorSet.universeMem] at ha
      next b =>
        refine ⟨.Bool b, ?_, ?_⟩
        · cases b <;> simp <;> exact Or.inr (Decidable.em _)
        · cases b <;> rfl
    · intro e he c hc hcw
      simp only [List.append_assoc, List.mem_append] at he
      rcases he with he | he | he | he | he
      · exact opaque_iod (List.mem_filter.mp he).2
      all_goals
        first
        | (have he2 := mem_ite_singleton he
           subst he2
           exact singleton_iod (coversAtom_bool_singleton _ _ _))
        | (have he2 := mem_ite_singleton2 he
           subst he2
           exact singleton_iod (coversAtom_bool_singleton _ _ _))
  | Unlistable =>
    simp only [ConstructorSet.split, Option.some.injEq] at hsplit
    subst hsplit
    constructor
    · intro a ha
      cases a <;> simp only [ConstructorSet.universeMem] at ha
      exact ⟨.NonExhaustive, by simp, rfl⟩
    · intro e he c hc hcw
      rcases List.mem_append.mp he with he | he
      · rcases List.mem_append.mp he with he | he
        · exact opaque_iod (List.mem_filter.mp he).2
        · obtain ⟨hemem, hepred⟩ := List.mem_filter.mp he
          have hoke := hok e hemem
          have hnfe := hnf e hemem
          cases e
          all_goals first
            | exact opaque_iod rfl
            | (simp [Constructor.isOpaque, Constructor.is_wildcard] at hepred; done)
            | (rcases hoke with ⟨v, hv⟩ | ⟨lo, hi, rend, hv⟩ | ⟨lo, hi, rend, hv⟩ <;>
                first
                | (injection hv with hveq
                   subst hveq
                   exact singleton_iod (coversAtom_str_singleton _ _ _))
                | exact absurd hv (hnfe.1 lo hi rend)
                | exact absurd hv (hnfe.2 lo hi rend)
                | (simp at hv; done))
      · rw [List.mem_singleton] at he
        subst he
        exact singleton_iod (coversAtom_nonexh_singleton _ _)
  | Uninhabited =>
    simp only [ConstructorSet.split] at hsplit
    split at hsplit <;> simp only [Option.some.injEq] at hsplit <;> subst hsplit
    all_goals constructor
    · intro a ha
      cases a <;> simp only [ConstructorSet.universeMem] at ha
    · intro e he c hc hcw
      rcases List.mem_append.mp he with he | he
      · exact opaque_iod (List.mem_filter.mp he).2
      · rw [List.mem_singleton] at he
        subst he
        exact singleton_iod (coversAtom_nonexh_singleton _ _)
    · intro a ha
      cases a <;> simp only [ConstructorSet.universeMem] at ha
    · intro e he c hc hcw
      rcases List.mem_append.mp he with he | he
      · exact opaque_iod (List.mem_filter.mp he).2
      · simp at he
  | Variants vis hid ne =>
    simp only [ConstructorSet.split, Option.bind_eq_bind, Option.bind_eq_some] at hsplit
    obtain ⟨seen_set, hss, hsp⟩ := hsplit
    simp only [Option.some.injEq] at hsp
    subst hsp
    have hsId : columnVariantIdxs ctors = seen_set := by
      rw [columnVariantIdxs, ← filterMap_variant_seen ctors]
      exact mapMOpt_filterMap hss
    constructor
    · intro a ha
      cases a <;> simp only [ConstructorSet.universeMem] at ha
      case variant i =>
        by_cases hctn : seen_set.contains i = true
        · refine ⟨.Variant i, ?_, by simp [coversAtom]⟩
          rcases ha with ha | ha
          · refine List.mem_append_left _ (List.mem_append_left _ (List.mem_append_right _ ?_))
            exact List.mem_map.mpr ⟨i, List.mem_filter.mpr ⟨ha, hctn⟩, rfl⟩
          · refine List.mem_append_left _ (List.mem_append_right _ ?_)
            exact List.mem_map.mpr ⟨i, List.mem_filter.mpr ⟨ha, hctn⟩, rfl⟩
        · rw [Bool.not_eq_true] at hctn
          rcases ha with ha | ha
          · refine ⟨.Variant i, ?_, by simp [coversAtom]⟩
            refine List.mem_append_right _ (List.mem_append_left _ (List.mem_append_left _ ?_))
            exact List.mem_map.mpr ⟨i, List.mem_filter.mpr
              ⟨ha, by simp only [hctn, Bool.not_false]⟩, rfl⟩
          · have hskip : hid.any (fun v => !seen_set.contains v) = true :=
              List.any_eq_true.mpr ⟨i, ha, by simp only [hctn, Bool.not_false]⟩
            refine ⟨.Hidden, ?_, ?_⟩
            · refine List.mem_append_right _ (List.mem_append_left _ (List.mem_append_right _ ?_))
              rw [if_pos hskip]
              exact List.mem_singleton.mpr rfl
            · simp only [coversAtom, hiddenOf]
              rw [hsId]
              simp only [hctn, Bool.not_false, Bool.and_true]
              exact List.elem_eq_true_of_mem ha
      case unknown =>
        refine ⟨.NonExhaustive, ?_, rfl⟩
        refine List.mem_append_right _ (List.mem_append_right _ ?_)
        rw [if_pos ha]
        exact List.mem_singleton.mpr rfl
    · intro e he c hc hcw
      rcases List.mem_append.mp he with he | he
      · rcases List.mem_append.mp he with he | he
        · rcases List.mem_append.mp he with he | he
          · exact opaque_iod (List.mem_filter.mp he).2
          · obtain ⟨i, _, rfl⟩ := List.mem_map.mp he
            exact singleton_iod (coversAtom_variant_singleton _ _ i)
        · obtain ⟨i, _, rfl⟩ := List.mem_map.mp he
          exact singleton_iod (coversAtom_variant_singleton _ _ i)
      · rcases List.mem_append.mp he with he | he
        · rcases List.mem_append.mp he with he | he
          · obtain ⟨i, _, rfl⟩ := List.mem_map.mp he
            exact singleton_iod (coversAtom_variant_singleton _ _ i)
          · have he2 := mem_ite_singleton he
            subst he2
            have hoke := hok c hc
            cases c
            case Opaque j => exact Or.inr hidden_opaque_disj
            case Wildcard => exact absurd hcw (by simp [Constructor.is_wildcard])
            case Variant j =>
              refine Or.inr ?_
              intro a ⟨h1, h2⟩
              cases a <;> simp [coversAtom, hiddenOf] at h1 h2
              next k =>
                obtain ⟨h1a, h1b⟩ := h1
                subst h2
                exact h1b (List.mem_filterMap.mpr ⟨.Variant j, hc, rfl⟩)
            all_goals
              obtain ⟨i2, hvi, hir⟩ := hoke
              exact absurd hvi (by simp)
        · have he2 := mem_ite_singleton he
          subst he2
          exact singleton_iod (coversAtom_nonexh_singleton _ _)
  | Integers r1 r2 =>
    obtain ⟨hwf1, hwf2⟩ := hwf
    simp only [ConstructorSet.split, Option.bind_eq_bind, Option.bind_eq_some] at hsplit
    obtain ⟨seen_ranges, hsr, hsp⟩ := hsplit
    simp only [Option.some.injEq] at hsp
    subst hsp
    have hcolr : ∀ cr ∈ seen_ranges, MaybeInfiniteInt.lt cr.lo cr.hi = true := by
      intro cr hcr
      obtain ⟨x, hxseen, hx⟩ := mapMOpt_mem hsr cr hcr
      obtain ⟨hxc, hxpred⟩ := List.mem_filter.mp hxseen
      have hoke := hok x hxc
      cases x
      case IntRange rr =>
        simp only [Constructor.as_int_range, Option.some.injEq] at hx
        subst hx
        obtain ⟨r', hr', hlt⟩ := hoke
        injection hr' with hre
        subst hre
        exact hlt
      all_goals simp [Constructor.as_int_range] at hx
    have hinv1 := split_invariants r1 seen_ranges hwf1 hcolr
    have h2cov : ∀ v, (∃ rr ∈ r2.toList, rr.contains v = true) →
        ∃ pe ∈ (r2.map (fun x => x.split seen_ranges)).getD [],
          pe.2.contains v = true := by
      intro v hex
      obtain ⟨rr, hrr, hrv⟩ := hex
      cases r2 with
      | none => simp at hrr
      | some r2v =>
        simp only [Option.toList_some, List.mem_singleton] at hrr
        subst hrr
        have hinv2 := split_invariants rr seen_ranges (hwf2 rr (by simp)) hcolr
        simp only [IntRange.contains, Bool.and_eq_true] at hrv
        obtain ⟨pe, hpe, hcv⟩ := (chainFrom_union hinv2.1 v).mpr ⟨hrv.1, hrv.2⟩
        simp only [Option.map_some', Option.getD_some]
        exact ⟨pe, hpe, hcv⟩
    have h2dich : ∀ pe ∈ (r2.map (fun x => x.split seen_ranges)).getD [],
        ∀ rc ∈ seen_ranges, pe.2.is_subrange rc = true ∨
          (∀ v, ¬(pe.2.contains v = true ∧ rc.contains v = true)) := by
      intro pe hpe rc hrc
      cases r2 with
      | none => simp at hpe
      | some r2v =>
        simp only [Option.map_some', Option.getD_some] at hpe
        exact (split_invariants r2v seen_ranges (hwf2 r2v (by simp)) hcolr).2.2 pe hpe rc hrc
    constructor
    · intro a ha
      cases a <;> simp only [ConstructorSet.universeMem] at ha
      next v =>
        rcases ha with hv | hv
        · simp only [IntRange.contains, Bool.and_eq_true] at hv
          obtain ⟨pe, hpe, hcv⟩ := (chainFrom_union hinv1.1 v).mpr ⟨hv.1, hv.2⟩
          refine ⟨.IntRange pe.2, ?_, by simpa [coversAtom] using hcv⟩
          exact mem_out_split (List.mem_append_left _ hpe)
        · obtain ⟨pe, hpe, hcv⟩ := h2cov v hv
          refine ⟨.IntRange pe.2, ?_, by simpa [coversAtom] using hcv⟩
          exact mem_out_split (List.mem_append_right _ hpe)
    · intro e he c hc hcw
      rcases mem_out_split_elim he with he | ⟨pe, hpe, rfl⟩
      · exact opaque_iod (List.mem_filter.mp he).2
      · have hoke := hok c hc
        cases c
        case Opaque j => exact Or.inr intrange_opaque_disj
        case Wildcard => exact absurd hcw (by simp [Constructor.is_wildcard])
        case IntRange rc =>
          obtain ⟨r', hr', hltc⟩ := hoke
          injection hr' with hre
          subst hre
          have hrcmem : rc ∈ seen_ranges := by
            refine mapMOpt_mem_of hsr (.IntRange rc) ?_ rc rfl
            exact List.mem_filter.mpr
              ⟨hc, by simp [Constructor.isOpaque, Constructor.is_wildcard]⟩
          have hdich : pe.2.is_subrange rc = true ∨
              (∀ v, ¬(pe.2.contains v = true ∧ rc.contains v = true)) := by
            rcases List.mem_append.mp hpe with hp1 | hp2
            · exact hinv1.2.2 pe hp1 rc hrcmem
            · exact h2dich pe hp2 rc hrcmem
          rcases hdich with hsub | hdisj
          · refine Or.inl ?_
            intro a hca
            cases a <;> simp [coversAtom] at hca ⊢
            next v => exact is_subrange_contains hsub hca
          · refine Or.inr ?_
            intro a hco
            obtain ⟨h1, h2⟩ := hco
            cases a <;> simp [coversAtom] at h1 h2
            next v => exact hdisj v ⟨h1, h2⟩
        all_goals
          obtain ⟨r', hr', hx2⟩ := hoke
          exact absurd hr' (by simp)
  | Slice array_len =>
    simp only [ConstructorSet.split, Option.bind_eq_bind, Option.bind_eq_some] at hsplit
    obtain ⟨seen_slices, hsl, hsp⟩ := hsplit
    simp only [Option.some.injEq] at hsp
    subst hsp
    have hmemslice : ∀ cs2 : Slice, ∀ c2 ∈ ctors, c2 = .Slice cs2 → cs2 ∈ seen_slices := by
      intro cs2 c2 hc2 hceq
      subst hceq
      refine mapMOpt_mem_of hsl (.Slice cs2) ?_ cs2 rfl
      exact List.mem_filter.mpr
        ⟨hc2, by simp [Constructor.isOpaque, Constructor.is_wildcard]⟩
    have hinv6 : ∀ (base : Slice) (mp ms : Nat),
        (∀ cs ∈ seen_slices, ∀ lenc, cs.kind = .FixedLen lenc → lenc < mp + ms) →
        (∀ cs ∈ seen_slices, ∀ pc sc, cs.kind = .VarLen pc sc → pc + sc ≤ mp + ms) →
        (∀ pr ∈ base.split seen_slices,
          (∃ k, pr.2.kind = .FixedLen k) ∨ pr.2.kind = .VarLen mp ms) →
        ∀ e, (e ∈ ctors.filter (fun c => c.isOpaque) ∨
          ∃ pr ∈ base.split seen_slices, e = Constructor.Slice pr.2) →
        ∀ c ∈ ctors, c.is_wildcard = false →
          InclOrDisj (hiddenOf (.Slice array_len)) (columnVariantIdxs ctors) e c := by
      intro base mp ms hf1 hf2 hf5 e hme c hc hcw
      rcases hme with he | hme
      · exact opaque_iod (List.mem_filter.mp he).2
      · obtain ⟨pr, hpr, rfl⟩ := hme
        have hoke := hok c hc
        cases c
        case Opaque j => exact Or.inr slice_opaque_disj
        case Wildcard => exact absurd hcw (by simp [Constructor.is_wildcard])
        case Slice cs =>
          have hcsm : cs ∈ seen_slices := hmemslice cs _ hc rfl
          exact slice_out_iod (hf5 pr hpr) (hf1 cs hcsm) (hf2 cs hcsm)
        all_goals
          obtain ⟨s', hs'⟩ := hoke
          exact absurd hs' (by simp)
    cases array_len with
    | none =>
      have hbase : Slice.new none (SliceKind.VarLen 0 0) =
          Slice.mk none (SliceKind.VarLen 0 0) := rfl
      rw [hbase]
      obtain ⟨mp, ms, f1, f2, f3, f4, f5, f6⟩ :=
        slice_split_varlen_struct none 0 0 seen_slices
      constructor
      · intro a ha
        cases a <;> simp only [ConstructorSet.universeMem] at ha
        next k =>
          obtain ⟨pr, hpr, hcov⟩ := f6 k (Nat.zero_le k) (Or.inl rfl)
          exact ⟨.Slice pr.2, mem_out_split hpr, by simpa [coversAtom] using hcov⟩
      · intro e he c hc hcw
        exact hinv6 _ mp ms f1 f2 f5 e (mem_out_split_elim he) c hc hcw
    | some n =>
      rcases n with _ | m
      · have hbase : Slice.new (some 0) (SliceKind.VarLen 0 0) =
            Slice.mk (some 0) (SliceKind.FixedLen 0) := rfl
        rw [hbase]
        obtain ⟨p, hout⟩ := slice_split_fixed_out (some 0) 0 seen_slices
        rw [hout]
        constructor
        · intro a ha
          cases a <;> simp only [ConstructorSet.universeMem] at ha
          next k =>
            subst ha
            refine ⟨.Slice (Slice.new (some 0) (.FixedLen 0)), ?_, rfl⟩
            exact mem_out_split (List.mem_singleton.mpr rfl)
        · intro e he c hc hcw
          rcases mem_out_split_elim he with he | hme
          · exact opaque_iod (List.mem_filter.mp he).2
          · obtain ⟨pr, hpr, rfl⟩ := hme
            rw [List.mem_singleton] at hpr
            subst hpr
            exact singleton_iod (coversAtom_fixedslice_singleton _ _ (some 0) 0)
      · have hbase : Slice.new (some (m + 1)) (SliceKind.VarLen 0 0) =
            Slice.mk (some (m + 1)) (SliceKind.VarLen 0 0) :=
          slice_new_var_keep (by omega)
        rw [hbase]
        obtain ⟨mp, ms, f1, f2, f3, f4, f5, f6⟩ :=
          slice_split_varlen_struct (some (m + 1)) 0 0 seen_slices
        constructor
        · intro a ha
          cases a <;> simp only [ConstructorSet.universeMem] at ha
          next k =>
            subst ha
            obtain ⟨pr, hpr, hcov⟩ := f6 (m + 1) (Nat.zero_le _) (Or.inr rfl)
            exact ⟨.Slice pr.2, mem_out_split hpr, by simpa [coversAtom] using hcov⟩
        · intro e he c hc hcw
          exact hinv6 _ mp ms f1 f2 f5 e (mem_out_split_elim he) c hc hcw
  | SliceOfEmpty =>
    simp only [ConstructorSet.split, Option.bind_eq_bind, Option.bind_eq_some] at hsplit
    obtain ⟨seen_slices, hsl, hsp⟩ := hsplit
    simp only [Option.some.injEq] at hsp
    subst hsp
    have hmemslice : ∀ cs2 : Slice, ∀ c2 ∈ ctors, c2 = .Slice cs2 → cs2 ∈ seen_slices := by
      intro cs2 c2 hc2 hceq
      subst hceq
      refine mapMOpt_mem_of hsl (.Slice cs2) ?_ cs2 rfl
      exact List.mem_filter.mpr
        ⟨hc2, by simp [Constructor.isOpaque, Constructor.is_wildcard]⟩
    have hbase : Slice.new none (SliceKind.VarLen 0 0) =
        Slice.mk none (SliceKind.VarLen 0 0) := rfl
    rw [hbase]
    obtain ⟨mp, ms, f1, f2, f3, f4, f5, f6⟩ :=
      slice_split_varlen_struct none 0 0 seen_slices
    constructor
    · intro a ha
      cases a <;> simp only [ConstructorSet.universeMem] at ha
      next k =>
        subst ha
        obtain ⟨pr, hpr, hcov⟩ := f6 0 (Nat.le_refl 0) (Or.inl rfl)
        rcases f5 pr hpr with ⟨k', hk'⟩ | hk'
        · have hk0 : k' = 0 := by
            rw [hk'] at hcov
            simpa [SliceKind.covers_length] using hcov
          subst hk0
          rcases pr with ⟨p, sx⟩
          cases p
          · refine ⟨.Slice (Slice.new none (.FixedLen 0)), ?_, rfl⟩
            refine List.mem_append_right _ ?_
            have harity : sx.arity = 0 := by
              have hk2 : sx.kind = SliceKind.FixedLen 0 := hk'
              simp [Slice.arity, hk2, SliceKind.arity]
            exact List.mem_filterMap.mpr
              ⟨(Presence.Unseen, sx), hpr, by rw [if_pos ⟨rfl, harity⟩]⟩
          · refine ⟨.Slice sx, ?_, ?_⟩
            · refine List.mem_append_left _ (List.mem_append_right _ ?_)
              exact List.mem_map.mpr
                ⟨(Presence.Seen, sx), List.mem_filter.mpr ⟨hpr, by simp⟩, rfl⟩
            · simpa [coversAtom] using hcov
        · rw [hk'] at hcov
          simp only [SliceKind.covers_length, decide_eq_true_eq] at hcov
          omega
    · intro e he c hc hcw
      rcases List.mem_append.mp he with he | he
      · rcases List.mem_append.mp he with he | he
        · exact opaque_iod (List.mem_filter.mp he).2
        · obtain ⟨pr, hprf, rfl⟩ := List.mem_map.mp he
          have hpr := (List.mem_filter.mp hprf).1
          have hoke := hok c hc
          cases c
          case Opaque j => exact Or.inr slice_opaque_disj
          case Wildcard => exact absurd hcw (by simp [Constructor.is_wildcard])
          case Slice cs =>
            have hcsm : cs ∈ seen_slices := hmemslice cs _ hc rfl
            exact slice_out_iod (f5 pr hpr) (f1 cs hcsm) (f2 cs hcsm)
          all_goals
            obtain ⟨s', hs'⟩ := hoke
            exact absurd hs' (by simp)
      · obtain ⟨pr, hpr2, heq⟩ := List.mem_filterMap.mp he
        split at heq
        · simp only [Option.some.injEq] at heq
          subst heq
          exact singleton_iod (coversAtom_fixedslice_singleton _ _ none 0)
        · simp at heq

/-- C1 (counterexample): the claimed invariants do not hold for every
`ConstructorSet` built by `ConstructorSet::for_ty` and every well-typed
column.  For `f32` the set is `Unlistable` and `ConstructorSet::split` copies
the seen column constructors verbatim into `present`, so the float column
`{2.0..=5.0, 4.0..=8.0}` puts `F32Range(2,5)` into `present` although it is
neither fully included in nor fully disjoint from the column constructor
`F32Range(4,8)` (the values in `4.0..=5.0` match both, `2.0` matches only the
former), violating claimed invariant 6. -/
theorem constructor_set_split_invariants_counterexample :
    ¬(∀ (fl : Features) (ty : Ty) (cset : ConstructorSet) (exh top : Bool)
        (ctors : List Constructor) (scs : SplitConstructorSet),
      ConstructorSet.for_ty fl ty = some cset →
      (∀ c ∈ ctors, ColCtorOk cset c) →
      cset.split exh top ctors = some scs →
      (∀ a, cset.universeMem a →
        ∃ e ∈ scs.present ++ scs.missing,
          coversAtom (hiddenOf cset) (columnVariantIdxs ctors) e a = true) ∧
      (∀ e ∈ scs.present ++ scs.missing, ∀ c ∈ ctors, c.is_wildcard = false →
        InclOrDisj (hiddenOf cset) (columnVariantIdxs ctors) e c)) := by
  intro h
  have hok : ∀ c ∈ [Constructor.F32Range 2 5 RangeEnd.Included,
      Constructor.F32Range 4 8 RangeEnd.Included], ColCtorOk ConstructorSet.Unlistable c := by
    intro c hc
    rcases List.mem_cons.mp hc with rfl | hc
    · exact Or.inr (Or.inl ⟨2, 5, RangeEnd.Included, rfl⟩)
    · rcases List.mem_cons.mp hc with rfl | hc
      · exact Or.inr (Or.inl ⟨4, 8, RangeEnd.Included, rfl⟩)
      · simp at hc
  have h2 := (h ⟨false, false⟩ (.float false) .Unlistable false false
      [.F32Range 2 5 .Included, .F32Range 4 8 .Included]
      ⟨[.F32Range 2 5 .Included, .F32Range 4 8 .Included], [.NonExhaustive]⟩
      rfl hok rfl).2
  have h3 := h2 (.F32Range 2 5 .Included) (by simp) (.F32Range 4 8 .Included)
    (by simp) rfl
  rcases h3 with hincl | hdisj
  · exact absurd (hincl (.f32 2) (by decide)) (by decide)
  · exact hdisj (.f32 4) ⟨by decide, by decide⟩

/-- C1 (amended): for every `ConstructorSet` built by `ConstructorSet::for_ty`
and every well-typed column that contains no float-range constructors, the
`SplitConstructorSet` returned by `ConstructorSet::split` satisfies the
split-set invariants 1 and 6: the union of `present` and `missing` covers the
whole type (every atom of the type is covered by some element), and every
element of `present ∪ missing` is either fully included in or fully disjoint
from each non-wildcard column constructor.  For float columns invariant 6 can
fail (see the counterexample): `Unlistable::split` copies seen constructors
verbatim into `present`, and two float ranges can partially overlap. -/
theorem constructor_set_split_invariants_spec (fl : Features) (ty : Ty)
    (cset : ConstructorSet) (exh top : Bool) (ctors : List Constructor)
    (scs : SplitConstructorSet)
    (hty : ConstructorSet.for_ty fl ty = some cset)
    (hok : ∀ c ∈ ctors, ColCtorOk cset c)
    (hnf : ∀ c ∈ ctors, (∀ lo hi rend, c ≠ .F32Range lo hi rend) ∧
      (∀ lo hi rend, c ≠ .F64Range lo hi rend))
    (hsplit : cset.split exh top ctors = some scs) :
    (∀ a, cset.universeMem a →
      ∃ e ∈ scs.present ++ scs.missing,
        coversAtom (hiddenOf cset) (columnVariantIdxs ctors) e a = true) ∧
    (∀ e ∈ scs.present ++ scs.missing, ∀ c ∈ ctors, c.is_wildcard = false →
      InclOrDisj (hiddenOf cset) (columnVariantIdxs ctors) e c) :=
  split_coverage_general cset (for_ty_wf hty) exh top ctors scs hok hnf hsplit

theorem constructor_set_split_invariants_spec_witness :
    (ConstructorSet.for_ty ⟨false, false⟩ Ty.bool = some ConstructorSet.Bool ∧
     (∀ c ∈ [Constructor.Bool true], ColCtorOk ConstructorSet.Bool c) ∧
     (∀ c ∈ [Constructor.Bool true],
       (∀ lo hi rend, c ≠ Constructor.F32Range lo hi rend) ∧
       (∀ lo hi rend, c ≠ Constructor.F64Range lo hi rend)) ∧
     ConstructorSet.Bool.split false true [Constructor.Bool true] =
       some ⟨[Constructor.Bool true], [Constructor.Bool false]⟩) ∧
    ((∀ a, ConstructorSet.Bool.universeMem a →
       ∃ e ∈ [Constructor.Bool true] ++ [Constructor.Bool false],
         coversAtom (hiddenOf ConstructorSet.Bool)
           (columnVariantIdxs [Constructor.Bool true]) e a = true) ∧
     (∀ e ∈ [Constructor.Bool true] ++ [Constructor.Bool false],
       ∀ c ∈ [Constructor.Bool true], c.is_wildcard = false →
         InclOrDisj (hiddenOf ConstructorSet.Bool)
           (columnVariantIdxs [Constructor.Bool true]) e c)) := by
  have hty : ConstructorSet.for_ty ⟨false, false⟩ Ty.bool = some ConstructorSet.Bool := rfl
  have hok : ∀ c ∈ [Constructor.Bool true], ColCtorOk ConstructorSet.Bool c := by
    intro c hc
    rw [List.mem_singleton] at hc
    subst hc
    exact ⟨true, rfl⟩
  have hnf : ∀ c ∈ [Constructor.Bool true],
      (∀ lo hi rend, c ≠ Constructor.F32Range lo hi rend) ∧
      (∀ lo hi rend, c ≠ Constructor.F64Range lo hi rend) := by
    intro c hc
    rw [List.mem_singleton] at hc
    subst hc
    exact ⟨fun _ _ _ h => Constructor.noConfusion h,
      fun _ _ _ h => Constructor.noConfusion h⟩
  have hsplit : ConstructorSet.Bool.split false true [Constructor.Bool true] =
      some ⟨[Constructor.Bool true], [Constructor.Bool false]⟩ := rfl
  exact ⟨⟨hty, hok, hnf, hsplit⟩,
    constructor_set_split_invariants_spec ⟨false, false⟩ Ty.bool ConstructorSet.Bool
      false true [Constructor.Bool true]
      ⟨[Constructor.Bool true], [Constructor.Bool false]⟩ hty hok hnf hsplit⟩
